import Mathlib

/-!
# Verification of the Donizo material scraper core (`src/scraper.py`)

This file gives a shallow embedding, in Lean 4, of the extraction core of the
scraper: the price/unit normalizer (`parse_price_unit`), the stable identity
(`stable_id`, SHA-256 truncated), the paginator (`paginate`, on top of models
of `urllib.parse`), the card parser (`parse_card`, on top of a model of the
BeautifulSoup DOM and a CSS-selector subset), the category scraper
(`scrape_category`, with the fetch layer abstracted as an oracle indexed by
fetch count and instrumented with a fetch trace), the resilient fetcher
(`fetch_html`) and the final deduplication pass of `run_scrape` (`dedup`).

Modelling conventions:
* Python `float` is modelled as `ℚ`; every numeric literal the price regex can
  accept is a finite decimal, hence exactly representable.
* Python `None`/string values are `Option String`; Python truthiness of such a
  value (`None` and `""` are falsy) is `optTruthy`.
* Machine-level details of `requests`/Playwright are abstracted: a fetch is an
  oracle from the fetch counter to either a parsed document or an exception.
* Timestamps (`datetime.now`) are passed in as an explicit `now : String`.
-/

set_option autoImplicit false

namespace Donizo

/-! ## Python string helpers -/

/-- The whitespace set of Python `str.strip()` / `str.isspace()` restricted to
the characters that can actually reach the scraper (ASCII whitespace, NEL,
NBSP).  The same set models the regex class `\s` (Unicode mode), which agrees
with `str.isspace()` on these characters. -/
def pyIsSpace (c : Char) : Bool :=
  c == ' ' || c == '\t' || c == '\n' || c == '\r' || c == '\x0b' || c == '\x0c' ||
  c == '\x85' || c == '\xa0'

/-- Python `str.strip()` on a character list. -/
def pyStripL (cs : List Char) : List Char :=
  ((cs.dropWhile pyIsSpace).reverse.dropWhile pyIsSpace).reverse

/-- Python `str.strip()`. -/
def pyStrip (s : String) : String :=
  String.mk (pyStripL s.data)

/-- Truthiness of a Python value that is either `None` or a string:
`None` and `""` are falsy. -/
def optTruthy : Option String → Bool
  | none => false
  | some s => ¬ s.isEmpty

/-- Python `x or y` for `None`-or-string values. -/
def pyOr (a b : Option String) : Option String :=
  if optTruthy a then a else b

/-! ## Data model (`Price`, `MaterialItem`, lines 28-46) -/

/-- Embeds the `Price` dataclass.  `value : Optional[float]` is modelled as
`Option ℚ`. -/
structure Price where
  value : Option ℚ
  currency : Option String
  raw : Option String
deriving Repr, DecidableEq

/-- Embeds the `MaterialItem` dataclass. -/
structure MaterialItem where
  id : String
  site : String
  category : String
  name : String
  brand : Option String
  price : Price
  unit : Option String
  url : String
  image_url : Option String
  availability : Option String
  scraped_at : String
deriving Repr, DecidableEq

/-! ## Deduplication (`run_scrape`, lines 316-320)

The Python code builds a `dict` keyed by `it.id` (`dedup[it.id] = it`) and
returns `list(dedup.values())`.  A Python dict keeps the position of the first
insertion of a key and the value of the last assignment, which is exactly
`dedupInsert` folded over the input. -/

/-- One step of the dict assignment `dedup[it.id] = it`: if the key is already
present its value is replaced in place, otherwise the pair is appended. -/
def dedupInsert (acc : List MaterialItem) (it : MaterialItem) : List MaterialItem :=
  if acc.any (fun x => x.id = it.id) then
    acc.map (fun x => if x.id = it.id then it else x)
  else
    acc ++ [it]

/-- Embeds the dedup loop of `run_scrape` (lines 317-320). -/
def dedup (items : List MaterialItem) : List MaterialItem :=
  items.foldl dedupInsert []

/-- First element with the given id (Python dict lookup order). -/
def lookupId (i : String) (l : List MaterialItem) : Option MaterialItem :=
  l.find? (fun x => x.id = i)

/-- Last element of the list carrying the given id, if any. -/
def lastWith (i : String) : List MaterialItem → Option MaterialItem
  | [] => none
  | x :: l =>
    match lastWith i l with
    | some y => some y
    | none => if x.id = i then some x else none

theorem map_replace_of_not_mem (it : MaterialItem) (l : List MaterialItem)
    (h : ∀ x ∈ l, x.id ≠ it.id) :
    l.map (fun x => if x.id = it.id then it else x) = l := by
  induction l with
  | nil => rfl
  | cons x t ih =>
    simp only [List.map_cons]
    rw [if_neg (h x (by simp)), ih (fun y hy => h y (by simp [hy]))]

theorem find_map_replace (i : String) (it : MaterialItem) (l : List MaterialItem)
    (hl : l.any (fun x => x.id = it.id) = true) :
    (l.map (fun x => if x.id = it.id then it else x)).find? (fun x => x.id = i) =
      if it.id = i then some it else l.find? (fun x => x.id = i) := by
  induction l with
  | nil => simp at hl
  | cons x t ih =>
    simp only [List.any_cons, Bool.or_eq_true, decide_eq_true_eq] at hl
    by_cases hx : x.id = it.id
    · by_cases hi : it.id = i
      · simp [List.find?, hx, hi]
      · simp only [List.map_cons, if_pos hx, List.find?]
        have h1 : (decide (it.id = i)) = false := by simp [hi]
        have h2 : (decide (x.id = i)) = false := by simp [hx, hi]
        simp only [h1, h2]
        by_cases ht : t.any (fun x => x.id = it.id) = true
        · rw [ih ht, if_neg hi]
        · have hmem : ∀ y ∈ t, y.id ≠ it.id := by
            intro y hy hyid
            exact ht (List.any_eq_true.mpr ⟨y, hy, by simp [hyid]⟩)
          rw [map_replace_of_not_mem it t hmem, if_neg hi]
    · have ht : t.any (fun x => x.id = it.id) = true := by
        rcases hl with h | h
        · exact absurd h hx
        · exact h
      simp only [List.map_cons, if_neg hx, List.find?]
      by_cases hxi : x.id = i
      · have hi : ¬ it.id = i := fun hi => hx (by rw [hxi, hi])
        simp [hxi, hi]
      · have h2 : (decide (x.id = i)) = false := by simp [hxi]
        simp only [h2]
        exact ih ht

theorem lookupId_dedupInsert (i : String) (acc : List MaterialItem) (it : MaterialItem) :
    lookupId i (dedupInsert acc it) = if it.id = i then some it else lookupId i acc := by
  unfold dedupInsert lookupId
  by_cases hany : acc.any (fun x => x.id = it.id) = true
  · rw [if_pos hany]
    exact find_map_replace i it acc hany
  · rw [if_neg hany]
    by_cases hi : it.id = i
    · have hnone : acc.find? (fun x => x.id = i) = none := by
        rw [List.find?_eq_none]
        intro x hx
        simp only [decide_eq_true_eq]
        intro hxi
        exact hany (List.any_eq_true.mpr ⟨x, hx, by simp [hxi, hi]⟩)
      rw [List.find?_append, hnone]
      simp [List.find?, hi]
    · rw [List.find?_append]
      have h2 : List.find? (fun x => x.id = i) [it] = none := by
        simp [List.find?, hi]
      rw [h2]
      simp [hi]

theorem lookupId_foldl (i : String) (l : List MaterialItem) :
    ∀ acc : List MaterialItem,
      lookupId i (List.foldl dedupInsert acc l) =
        match lastWith i l with
        | some y => some y
        | none => lookupId i acc := by
  induction l with
  | nil => intro acc; simp [lastWith]
  | cons x l ih =>
    intro acc
    simp only [List.foldl_cons]
    rw [ih (dedupInsert acc x), lookupId_dedupInsert]
    cases hlast : lastWith i l with
    | some y => simp [lastWith, hlast]
    | none =>
      by_cases hx : x.id = i
      · simp [lastWith, hlast, hx]
      · simp [lastWith, hlast, hx]

/-- Deduplicated lookup equals the last occurrence per id. -/
theorem lookupId_dedup (i : String) (l : List MaterialItem) :
    lookupId i (dedup l) = lastWith i l := by
  unfold dedup
  rw [lookupId_foldl]
  cases h : lastWith i l <;> simp [lookupId]

theorem lastWith_mem {i : String} {l : List MaterialItem} {x : MaterialItem}
    (h : lastWith i l = some x) : x ∈ l ∧ x.id = i := by
  induction l with
  | nil => simp [lastWith] at h
  | cons y t ih =>
    unfold lastWith at h
    cases ht : lastWith i t with
    | some z =>
      rw [ht] at h
      have hz : z = x := by cases h; rfl
      subst hz
      obtain ⟨hm, hid⟩ := ih ht
      exact ⟨List.mem_cons_of_mem _ hm, hid⟩
    | none =>
      rw [ht] at h
      by_cases hy : y.id = i
      · rw [if_pos hy] at h
        cases h
        exact ⟨by simp, hy⟩
      · rw [if_neg hy] at h
        cases h

theorem dedupInsert_id_eq (it a : MaterialItem) :
    (if a.id = it.id then it else a).id = a.id := by
  by_cases h : a.id = it.id
  · rw [if_pos h, h]
  · rw [if_neg h]

theorem dedupInsert_pairwise {acc : List MaterialItem} (it : MaterialItem)
    (h : acc.Pairwise (fun a b => a.id ≠ b.id)) :
    (dedupInsert acc it).Pairwise (fun a b => a.id ≠ b.id) := by
  unfold dedupInsert
  by_cases hany : acc.any (fun x => x.id = it.id) = true
  · rw [if_pos hany, List.pairwise_map]
    refine h.imp_of_mem ?_
    intro a b _ _ hab
    rw [dedupInsert_id_eq, dedupInsert_id_eq]
    exact hab
  · rw [if_neg hany, List.pairwise_append]
    refine ⟨h, List.pairwise_singleton _ _, ?_⟩
    intro a ha b hb
    simp only [List.mem_singleton] at hb
    subst hb
    intro hid
    exact hany (List.any_eq_true.mpr ⟨a, ha, by simp [hid]⟩)

theorem dedup_pairwise (l : List MaterialItem) :
    (dedup l).Pairwise (fun a b => a.id ≠ b.id) := by
  unfold dedup
  have : ∀ acc : List MaterialItem, acc.Pairwise (fun a b => a.id ≠ b.id) →
      (List.foldl dedupInsert acc l).Pairwise (fun a b => a.id ≠ b.id) := by
    induction l with
    | nil => intro acc h; exact h
    | cons x t ih =>
      intro acc h
      exact ih _ (dedupInsert_pairwise x h)
  exact this [] (List.Pairwise.nil)

theorem lookupId_of_mem {l : List MaterialItem} {x : MaterialItem}
    (hp : l.Pairwise (fun a b => a.id ≠ b.id)) (hm : x ∈ l) :
    lookupId x.id l = some x := by
  induction l with
  | nil => simp at hm
  | cons y t ih =>
    rcases List.mem_cons.mp hm with h | h
    · subst h
      simp [lookupId, List.find?]
    · have hy : y.id ≠ x.id := (List.pairwise_cons.mp hp).1 x h
      have : (decide (y.id = x.id)) = false := by simp [hy]
      unfold lookupId
      rw [List.find?]
      rw [this]
      exact ih (List.pairwise_cons.mp hp).2 h

theorem foldl_dedupInsert_of_pairwise (l : List MaterialItem) :
    ∀ acc : List MaterialItem, (acc ++ l).Pairwise (fun a b => a.id ≠ b.id) →
      List.foldl dedupInsert acc l = acc ++ l := by
  induction l with
  | nil => intro acc _; simp
  | cons x t ih =>
    intro acc h
    have hx : ∀ a ∈ acc, a.id ≠ x.id := by
      intro a ha
      exact (List.pairwise_append.mp h).2.2 a ha x (by simp)
    have hany : acc.any (fun a => a.id = x.id) = false := by
      rw [List.any_eq_false]
      intro a ha
      simp [hx a ha]
    have hins : dedupInsert acc x = acc ++ [x] := by
      unfold dedupInsert
      rw [if_neg (by simp [hany])]
    rw [List.foldl_cons, hins, ih (acc ++ [x]) (by simpa using h)]
    simp

/-- Deduplication is the identity on lists with pairwise-distinct ids. -/
theorem dedup_of_pairwise {l : List MaterialItem}
    (h : l.Pairwise (fun a b => a.id ≠ b.id)) : dedup l = l := by
  unfold dedup
  simpa using foldl_dedupInsert_of_pairwise l [] (by simpa using h)

/-- A list member's id always has a last carrier. -/
theorem lastWith_isSome_of_mem {l : List MaterialItem} {x : MaterialItem}
    (hm : x ∈ l) : ∃ y, lastWith x.id l = some y := by
  induction l with
  | nil => cases hm
  | cons z t ih =>
    rcases List.mem_cons.mp hm with rfl | hm2
    · cases ht : lastWith x.id t with
      | some y => exact ⟨y, by simp [lastWith, ht]⟩
      | none => exact ⟨x, by simp [lastWith, ht]⟩
    · obtain ⟨y, hy⟩ := ih hm2
      exact ⟨y, by simp [lastWith, hy]⟩

/--
C2: `dedup` keeps at most one record per distinct id (pairwise-distinct ids in
the output) and keeps for each id the last record encountered in input order —
stated both as the full per-id characterization (`lookupId` of the output is
`lastWith` of the input, for every id) and as the retention guarantee that
every input record's id survives, carried by the last record with that id; it
is idempotent, and its output size never exceeds the number of distinct id
values in the input.
-/
theorem C2_dedup_contract (items : List MaterialItem) :
    (dedup items).Pairwise (fun a b => a.id ≠ b.id) ∧
    (∀ i : String, lookupId i (dedup items) = lastWith i items) ∧
    (∀ it ∈ items, ∃ keep, keep ∈ dedup items ∧ keep.id = it.id ∧
      lastWith it.id items = some keep) ∧
    (∀ it ∈ dedup items, lastWith it.id items = some it) ∧
    dedup (dedup items) = dedup items ∧
    (dedup items).length ≤ ((items.map (fun it => it.id)).dedup).length := by
  have hp := dedup_pairwise items
  refine ⟨hp, fun i => lookupId_dedup i items, ?_, ?_, dedup_of_pairwise hp, ?_⟩
  · intro it hm
    obtain ⟨y, hy⟩ := lastWith_isSome_of_mem hm
    refine ⟨y, ?_, (lastWith_mem hy).2, hy⟩
    have hfind : lookupId it.id (dedup items) = some y := by
      rw [lookupId_dedup]
      exact hy
    exact List.mem_of_find?_eq_some hfind
  · intro it hm
    rw [← lookupId_dedup]
    exact lookupId_of_mem hp hm
  · have hnd : ((dedup items).map (fun it => it.id)).Nodup := by
      exact List.pairwise_map.mpr hp
    have hsub : ((dedup items).map (fun it => it.id)).toFinset ⊆
        (items.map (fun it => it.id)).toFinset := by
      intro i hi
      rw [List.mem_toFinset, List.mem_map] at hi
      obtain ⟨y, hy, hyid⟩ := hi
      have hlast : lastWith y.id items = some y := by
        rw [← lookupId_dedup]
        exact lookupId_of_mem hp hy
      have hmem := (lastWith_mem hlast).1
      rw [List.mem_toFinset, List.mem_map]
      exact ⟨y, hmem, hyid⟩
    calc (dedup items).length
        = ((dedup items).map (fun it => it.id)).length := by rw [List.length_map]
      _ = ((dedup items).map (fun it => it.id)).toFinset.card :=
          (List.toFinset_card_of_nodup hnd).symm
      _ ≤ (items.map (fun it => it.id)).toFinset.card := Finset.card_le_card hsub
      _ = ((items.map (fun it => it.id)).dedup).length := List.card_toFinset _

/-- Witness for C2: two records sharing an id, instantiating the per-id
characterization at that id, and idempotence. -/
theorem C2_dedup_contract_witness :
    lookupId "i"
        (dedup
          [⟨"i", "s", "c", "A", none, ⟨none, none, none⟩, none, "u", none, none, "t1"⟩,
           ⟨"i", "s", "c", "B", none, ⟨none, none, none⟩, none, "u", none, none, "t2"⟩]) =
      lastWith "i"
        [⟨"i", "s", "c", "A", none, ⟨none, none, none⟩, none, "u", none, none, "t1"⟩,
         ⟨"i", "s", "c", "B", none, ⟨none, none, none⟩, none, "u", none, none, "t2"⟩] ∧
    dedup (dedup
        [⟨"i", "s", "c", "A", none, ⟨none, none, none⟩, none, "u", none, none, "t1"⟩,
         ⟨"i", "s", "c", "B", none, ⟨none, none, none⟩, none, "u", none, none, "t2"⟩]) =
      dedup
        [⟨"i", "s", "c", "A", none, ⟨none, none, none⟩, none, "u", none, none, "t1"⟩,
         ⟨"i", "s", "c", "B", none, ⟨none, none, none⟩, none, "u", none, none, "t2"⟩] :=
  ⟨(C2_dedup_contract _).2.1 "i", (C2_dedup_contract _).2.2.2.2.1⟩

/-! ## Resilient fetcher (`SiteScraper._fetch_html`, lines 162-173)

```
r = self.session.get(url, timeout=30)
if r.status_code == 200 and r.text.strip():
    return r.text
if self.use_playwright or r.status_code in (403, 429):
    try:
        return fetch_with_playwright(url, wait_selector=self.S.get("product_card"))
    except Exception as e:
        print(f"[warn] Playwright failed on ... ")
r.raise_for_status()
return r.text
```

The HTTP layer is abstracted: the direct GET yields an `HttpResponse`
(status code and body); the Playwright fallback either yields markup
(`some html`) or raises (`none`).  `raise_for_status` raises `HTTPError`
exactly for status codes 400-599; we model that error by the status code
itself, so the error type has no constructor for rendering errors at all:
a Playwright exception is caught and only logged.  The second component of
the result records whether the rendering fallback was attempted. -/

/-- An HTTP response as seen by `_fetch_html`. -/
structure HttpResponse where
  status : Nat
  text : String
deriving Repr, DecidableEq

/-- Embeds `SiteScraper._fetch_html` (the throttle sleep has no observable
effect on the result and is omitted). -/
def fetch_html (use_playwright : Bool) (r : HttpResponse) (pw : Option String) :
    Except Nat String × Bool :=
  if r.status = 200 ∧ ¬ (pyStrip r.text).isEmpty then (Except.ok r.text, false)
  else if use_playwright ∨ r.status = 403 ∨ r.status = 429 then
    match pw with
    | some html => (Except.ok html, true)
    | none =>
        (if 400 ≤ r.status ∧ r.status ≤ 599 then Except.error r.status
         else Except.ok r.text, true)
  else
    (if 400 ≤ r.status ∧ r.status ≤ 599 then Except.error r.status
     else Except.ok r.text, false)

/--
C7 counterexample: the claim says the rendering fallback is attempted whenever
the site is statically configured to require the rendering engine, but a 200
response with a non-empty body returns immediately with no fallback, even on a
Playwright-configured site.  (The code also skips the fallback for a non-200
status outside {403, 429} on a non-Playwright site.)
-/
theorem C7_counterexample :
    (fetch_html true ⟨200, "ok"⟩ none).2 = false ∧
    ((¬ ((200 : Nat) = 200) ∨ (pyStrip "ok").isEmpty = true) ∨ (true : Bool) = true) := by
  constructor
  · rfl
  · right; rfl

/--
C7 (amended): the rendering fallback is attempted exactly when the direct
response is non-200 or has an empty (after stripping) body AND the site is
configured for Playwright or the status is 403 or 429; when the fallback is
attempted and itself fails, the fetch re-raises the original HTTP error if the
direct status is an error status (400-599) and otherwise returns the direct
(empty) body — a rendering error never propagates.
-/
theorem C7_fetch_fallback (u : Bool) (r : HttpResponse) (pw : Option String) :
    ((fetch_html u r pw).2 = true ↔
      (¬ (r.status = 200 ∧ ¬ (pyStrip r.text).isEmpty) ∧
        (u = true ∨ r.status = 403 ∨ r.status = 429))) ∧
    ((fetch_html u r pw).2 = true → pw = none →
      (fetch_html u r pw).1 =
        (if 400 ≤ r.status ∧ r.status ≤ 599 then Except.error r.status
         else Except.ok r.text)) := by
  unfold fetch_html
  by_cases h1 : r.status = 200 ∧ ¬ (pyStrip r.text).isEmpty
  · rw [if_pos h1]
    refine ⟨?_, ?_⟩
    · simp [h1]
    · intro h; simp at h
  · rw [if_neg h1]
    by_cases h2 : u = true ∨ r.status = 403 ∨ r.status = 429
    · have h2' : (u : Prop) ∨ r.status = 403 ∨ r.status = 429 := by
        rcases h2 with h | h
        · exact Or.inl (by simp [h])
        · exact Or.inr h
      rw [if_pos h2']
      cases pw with
      | some html => exact ⟨⟨fun _ => ⟨h1, h2⟩, fun _ => rfl⟩, by intro _ hpw; cases hpw⟩
      | none => exact ⟨⟨fun _ => ⟨h1, h2⟩, fun _ => rfl⟩, by intro _ _; rfl⟩
    · have h2' : ¬ ((u : Prop) ∨ r.status = 403 ∨ r.status = 429) := by
        intro hc
        rcases hc with h | h
        · exact h2 (Or.inl (by simpa using h))
        · exact h2 (Or.inr h)
      rw [if_neg h2']
      exact ⟨by simp [h2], by intro h; simp at h⟩

/-- Witness for C7 (amended) at a concrete 500 response on a
Playwright-configured site whose fallback fails. -/
theorem C7_fetch_fallback_witness :
    (fetch_html true ⟨500, "boom"⟩ none).2 = true ∧
    (fetch_html true ⟨500, "boom"⟩ none).1 = Except.error 500 := by
  have h := C7_fetch_fallback true ⟨500, "boom"⟩ none
  have h2 : (fetch_html true ⟨500, "boom"⟩ none).2 = true := by
    apply h.1.mpr
    refine ⟨?_, Or.inl rfl⟩
    decide
  refine ⟨h2, ?_⟩
  rw [h.2 h2 rfl]
  rfl

/-! ## Price/unit normalizer (`PRICE_REGEX`, `UNIT_REGEX`, `parse_price_unit`,
lines 56-84)

```
PRICE_REGEX = re.compile(
    r"(?P<currency>€|EUR|£)\s*(?P<amount>\d+[.,]?\d*(?:[.,]\d{2})?)"
    r"|(?P<amount2>\d+[.,]?\d*)\s*(?P<currency2>€|EUR|£)", re.I)
UNIT_REGEX = re.compile(r"(?:/|par)\s*(m2|m²|m3|L|l|kg|pièce|unité|paquet|boîte|m|ml)\b", re.I)
```

The two regexes are hand-compiled into deterministic greedy walks.  For these
particular patterns a greedy walk is exactly Python's backtracking search:
after each greedy sub-match (`\d+`, `\d*`, `\s*`, `[.,]?`) the next required
character class is disjoint from the one just consumed (digits, separators,
whitespace and currency starts are pairwise disjoint), so giving characters
back can never turn a failure into a success; the engine therefore fails at a
start position exactly when the greedy walk does, and `re.search` moves to the
next position.  `\d` is modelled as the ASCII digits and `\s` by `pyIsSpace`
(the non-ASCII whitespace NBSP is replaced by a space before matching). -/

/-- The regex class `\d` (ASCII digits). -/
def isDigitChar (c : Char) : Bool := 48 ≤ c.toNat && c.toNat ≤ 57

/-- The regex class `[.,]`. -/
def isSepChar (c : Char) : Bool := c == '.' || c == ','

/-- Greedy character-class repetition: longest prefix satisfying `p`, and the
rest. -/
def spanP (p : Char → Bool) : List Char → List Char × List Char
  | [] => ([], [])
  | c :: cs =>
    if p c then
      let r := spanP p cs
      (c :: r.1, r.2)
    else ([], c :: cs)

/-- The alternation `€|EUR|£` under `re.I`, tried in that order; returns the
matched slice of the input and the rest.  (Case-insensitivity only affects
the letters E, U, R.) -/
def matchCurrency (cs : List Char) : Option (List Char × List Char) :=
  match cs with
  | [] => none
  | c1 :: r1 =>
    if c1 = '€' then some ([c1], r1)
    else
      match r1 with
      | c2 :: c3 :: r3 =>
        if (c1 = 'E' ∨ c1 = 'e') ∧ (c2 = 'U' ∨ c2 = 'u') ∧ (c3 = 'R' ∨ c3 = 'r') then
          some ([c1, c2, c3], r3)
        else if c1 = '£' then some ([c1], r1)
        else none
      | _ => if c1 = '£' then some ([c1], r1) else none

/-- The group `(?P<amount>\d+[.,]?\d*(?:[.,]\d{2})?)`, greedily. -/
def matchAmount1 (cs : List Char) : Option (List Char × List Char) :=
  let s1 := spanP isDigitChar cs
  if s1.1.isEmpty then none
  else
    let sep : List Char × List Char :=
      match s1.2 with
      | c :: t => if isSepChar c then ([c], t) else ([], s1.2)
      | [] => ([], s1.2)
    let s2 := spanP isDigitChar sep.2
    let g : List Char × List Char :=
      match s2.2 with
      | c :: a :: b :: t =>
        if isSepChar c ∧ isDigitChar a ∧ isDigitChar b then ([c, a, b], t)
        else ([], s2.2)
      | _ => ([], s2.2)
    some (s1.1 ++ sep.1 ++ s2.1 ++ g.1, g.2)

/-- The group `(?P<amount2>\d+[.,]?\d*)`, greedily. -/
def matchAmount2 (cs : List Char) : Option (List Char × List Char) :=
  let s1 := spanP isDigitChar cs
  if s1.1.isEmpty then none
  else
    let sep : List Char × List Char :=
      match s1.2 with
      | c :: t => if isSepChar c then ([c], t) else ([], s1.2)
      | [] => ([], s1.2)
    let s2 := spanP isDigitChar sep.2
    some (s1.1 ++ sep.1 ++ s2.1, s2.2)

/-- The four named groups of `PRICE_REGEX`; a group of the alternative that
did not participate in the match is `none`, as in Python. -/
structure PriceGroups where
  currency : Option (List Char)
  amount : Option (List Char)
  amount2 : Option (List Char)
  currency2 : Option (List Char)
deriving Repr, DecidableEq

/-- First alternative `(?P<currency>...)\s*(?P<amount>...)` at this position. -/
def matchAlt1 (cs : List Char) : Option PriceGroups :=
  match matchCurrency cs with
  | some (cur, r1) =>
    let r2 := (spanP pyIsSpace r1).2
    match matchAmount1 r2 with
    | some (amt, _) => some ⟨some cur, some amt, none, none⟩
    | none => none
  | none => none

/-- Second alternative `(?P<amount2>...)\s*(?P<currency2>...)` at this
position. -/
def matchAlt2 (cs : List Char) : Option PriceGroups :=
  match matchAmount2 cs with
  | some (amt, r1) =>
    let r2 := (spanP pyIsSpace r1).2
    match matchCurrency r2 with
    | some (cur, _) => some ⟨none, none, some amt, some cur⟩
    | none => none
  | none => none

/-- `PRICE_REGEX.search`: leftmost match, first alternative preferred at each
start position. -/
def priceSearch : List Char → Option PriceGroups
  | [] => none
  | c :: rest =>
    match matchAlt1 (c :: rest) with
    | some g => some g
    | none =>
      match matchAlt2 (c :: rest) with
      | some g => some g
      | none => priceSearch rest

/-- The unit vocabulary of `UNIT_REGEX`, in alternation order. -/
def unitAlternatives : List String :=
  ["m2", "m²", "m3", "L", "l", "kg", "pièce", "unité", "paquet", "boîte", "m", "ml"]

/-- Case-insensitive prefix match (via `Char.toLower`, which maps ASCII
letters only — Python's `re.I` also folds the accented letters of the unit
vocabulary, which never changes the outcome on the scraped sites' text);
returns the matched slice of the input (original case, as `group(1)` does)
and the rest. -/
def ciPrefixMatch : List Char → List Char → Option (List Char × List Char)
  | [], cs => some ([], cs)
  | _ :: _, [] => none
  | p :: ps, c :: cs =>
    if c.toLower = p.toLower then
      match ciPrefixMatch ps cs with
      | some (m, r) => some (c :: m, r)
      | none => none
    else none

/-- The regex class `\w` restricted to the characters that occur in the
scraper's inputs (Python's version covers all Unicode letters and digits). -/
def isWordChar (c : Char) : Bool :=
  c.isAlphanum || c == '_' || c == 'è' || c == 'é' || c == 'î' || c == '²'

/-- The group alternation of `UNIT_REGEX` followed by `\b`, tried in order;
an alternative that matches but fails the word boundary is abandoned for the
next one (regex backtracking into the alternation). -/
def matchUnitAlt (cs : List Char) : List (List Char) → Option (List Char)
  | [] => none
  | alt :: rest =>
    match ciPrefixMatch alt cs with
    | some (m, r) =>
      if (match r with | [] => true | c :: _ => !(isWordChar c)) then some m
      else matchUnitAlt cs rest
    | none => matchUnitAlt cs rest

/-- `(?:/|par)\s*(alts)\b` at this position. -/
def matchUnitAt (cs : List Char) : Option (List Char) :=
  let afterMark : Option (List Char) :=
    match cs with
    | '/' :: r => some r
    | _ =>
      match ciPrefixMatch ['p', 'a', 'r'] cs with
      | some (_, r) => some r
      | none => none
  match afterMark with
  | some r => matchUnitAlt (spanP pyIsSpace r).2 (unitAlternatives.map String.data)
  | none => none

/-- `UNIT_REGEX.search`. -/
def unitSearch : List Char → Option (List Char)
  | [] => none
  | c :: rest =>
    match matchUnitAt (c :: rest) with
    | some u => some u
    | none => unitSearch rest

/-- Decimal value of an ASCII digit string. -/
def digitsVal (ds : List Char) : ℚ :=
  ds.foldl (fun acc c => acc * 10 + ((c.toNat - 48 : ℕ) : ℚ)) 0

/-- Python `float()` on the strings the amount groups can produce (digits and
dots; signs, exponents, `inf`/`nan` and underscores cannot occur there).
Returns `none` on `ValueError` (e.g. two dots). -/
def pyFloat (cs : List Char) : Option ℚ :=
  match spanP isDigitChar cs with
  | (ip, []) => if ip.isEmpty then none else some (digitsVal ip)
  | (ip, '.' :: r2) =>
    match spanP isDigitChar r2 with
    | (fp, []) =>
      if ip.isEmpty ∧ fp.isEmpty then none
      else some (digitsVal ip + digitsVal fp / 10 ^ fp.length)
    | _ => none
  | _ => none

/-- Python `str.upper()` (ASCII; the currency symbols are unaffected). -/
def pyUpper (s : String) : String :=
  String.mk (s.data.map Char.toUpper)

/-- Python `str.startswith` (a kernel-computable model of
`String.startsWith`). -/
def pyStartsWith (s p : String) : Bool :=
  p.data.isPrefixOf s.data

/-- Embeds `parse_price_unit` (lines 65-84).  `float` is modelled as `ℚ`. -/
def parse_price_unit (text : Option String) :
    Option ℚ × Option String × Option String × Option String :=
  match text with
  | none => (none, none, none, none)
  | some s =>
    if s.isEmpty then (none, none, none, none)
    else
      let t : List Char := pyStripL (s.data.map (fun c => if c = '\xa0' then ' ' else c))
      let m := priceSearch t
      let currency : Option String :=
        match m with
        | some g =>
          some (pyStrip (String.mk ((g.currency.orElse (fun _ => g.currency2)).getD [])))
        | none => none
      let amount : Option (List Char) :=
        match m with
        | some g =>
          some ((((g.amount.orElse (fun _ => g.amount2)).getD []).filter
            (fun c => c ≠ ' ')).map (fun c => if c = ',' then '.' else c))
        | none => none
      let val : Option ℚ :=
        match amount with
        | some a => if a.isEmpty then none else pyFloat a
        | none => none
      let currencyN : Option String :=
        match currency with
        | some c =>
          some (if ¬ c.isEmpty ∧ pyStartsWith (pyUpper c) "E" then "€" else c)
        | none => none
      (val, currencyN, (unitSearch t).map String.mk, some (String.mk t))

/-! ### Character-class facts used by the C1 proof -/

theorem isDigitChar_toNat {c : Char} (h : isDigitChar c = true) :
    48 ≤ c.toNat ∧ c.toNat ≤ 57 := by
  unfold isDigitChar at h
  simp only [Bool.and_eq_true, decide_eq_true_eq] at h
  exact h

theorem digit_ne {c : Char} (x : Char) (h : isDigitChar c = true)
    (hx : isDigitChar x = false) : c ≠ x := by
  intro he
  subst he
  rw [h] at hx
  cases hx

theorem digit_not_space {c : Char} (h : isDigitChar c = true) : pyIsSpace c = false := by
  cases hs : pyIsSpace c
  · rfl
  · exfalso
    unfold pyIsSpace at hs
    simp only [Bool.or_eq_true, beq_iff_eq] at hs
    rcases hs with ((((((h1 | h1) | h1) | h1) | h1) | h1) | h1) | h1 <;>
      (subst h1; exact absurd h (by decide))

theorem digit_not_sep {c : Char} (h : isDigitChar c = true) : isSepChar c = false := by
  cases hs : isSepChar c
  · rfl
  · exfalso
    unfold isSepChar at hs
    simp only [Bool.or_eq_true, beq_iff_eq] at hs
    rcases hs with h1 | h1 <;> (subst h1; exact absurd h (by decide))

theorem sep_cases {c : Char} (h : isSepChar c = true) : c = '.' ∨ c = ',' := by
  unfold isSepChar at h
  simpa using h

/-! ### `spanP` and `pyStripL` computation lemmas -/

theorem spanP_cons_neg {p : Char → Bool} {c : Char} (h : p c = false) (t : List Char) :
    spanP p (c :: t) = ([], c :: t) := by
  unfold spanP
  rw [if_neg]
  simp [h]

theorem spanP_head_neg {p : Char → Bool} (l : List Char)
    (h : ∀ c t, l = c :: t → p c = false) : spanP p l = ([], l) := by
  cases hl : l with
  | nil => rfl
  | cons c t => exact spanP_cons_neg (h c t hl) t

theorem spanP_append (p : Char → Bool) (ds r : List Char)
    (h1 : ∀ c ∈ ds, p c = true) (h2 : ∀ c t, r = c :: t → p c = false) :
    spanP p (ds ++ r) = (ds, r) := by
  induction ds with
  | nil =>
    simp only [List.nil_append]
    exact spanP_head_neg r h2
  | cons d ds ih =>
    have hd : p d = true := h1 d (by simp)
    simp only [List.cons_append]
    unfold spanP
    rw [if_pos hd, ih (fun c hc => h1 c (by simp [hc]))]

theorem dropWhile_head_neg {p : Char → Bool} (l : List Char)
    (h : ∀ c t, l = c :: t → p c = false) : l.dropWhile p = l := by
  cases hl : l with
  | nil => rfl
  | cons c t =>
    rw [List.dropWhile_cons, if_neg]
    simp [h c t hl]

theorem pyStripL_id (l : List Char)
    (h1 : ∀ c t, l = c :: t → pyIsSpace c = false)
    (h2 : ∀ c t, l.reverse = c :: t → pyIsSpace c = false) :
    pyStripL l = l := by
  unfold pyStripL
  rw [dropWhile_head_neg l h1, dropWhile_head_neg l.reverse h2, List.reverse_reverse]

/-! ### `PRICE_REGEX` computation lemmas for the C1 shapes -/

theorem spanP_nil (p : Char → Bool) : spanP p [] = ([], []) := rfl

theorem matchCurrency_digit {c : Char} (h : isDigitChar c = true) (r : List Char) :
    matchCurrency (c :: r) = none := by
  have h1 : ¬ c = '€' := digit_ne '€' h (by decide)
  have h2 : ¬ (c = 'E' ∨ c = 'e') := by
    rintro (he | he) <;> (subst he; exact absurd h (by decide))
  have h3 : ¬ c = '£' := digit_ne '£' h (by decide)
  cases r with
  | nil => simp [matchCurrency, h1, h3]
  | cons c2 r2 =>
    cases r2 with
    | nil => simp [matchCurrency, h1, h3]
    | cons c3 r3 => simp [matchCurrency, h1, h2, h3]

theorem matchCurrency_euro (r : List Char) :
    matchCurrency ('€' :: r) = some (['€'], r) := by
  simp [matchCurrency]

theorem matchCurrency_eur (r : List Char) :
    matchCurrency ('E' :: 'U' :: 'R' :: r) = some (['E', 'U', 'R'], r) := by
  simp [matchCurrency]

/-- Heads of a tail list that is empty or starts with a space or a currency
start: neither a digit nor a separator, so the greedy digit walks stop
exactly at the end of the amount. -/
def amountStopper (r : List Char) : Prop :=
  ∀ c t, r = c :: t → isDigitChar c = false ∧ isSepChar c = false

theorem list_isEmpty_false {ds : List Char} (hne : ds ≠ []) : ds.isEmpty = false := by
  cases ds
  · exact absurd rfl hne
  · rfl

theorem spanP_all (p : Char → Bool) (ds : List Char) (hds : ∀ c ∈ ds, p c = true) :
    spanP p ds = (ds, []) := by
  have := spanP_append p ds [] hds (by intro c t h; cases h)
  simpa using this

theorem matchAmount2_whole (ds r : List Char) (hne : ds ≠ [])
    (hds : ∀ c ∈ ds, isDigitChar c = true) (hr : amountStopper r) :
    matchAmount2 (ds ++ r) = some (ds, r) := by
  have hspan1 : spanP isDigitChar (ds ++ r) = (ds, r) :=
    spanP_append isDigitChar ds r hds (fun c t h => (hr c t h).1)
  have hne' := list_isEmpty_false hne
  cases hrr : r with
  | nil =>
    subst hrr
    unfold matchAmount2
    rw [hspan1]
    simp [hne', spanP_nil]
  | cons c t =>
    subst hrr
    have hcsep : isSepChar c = false := (hr c t rfl).2
    have hspan2 : spanP isDigitChar (c :: t) = ([], c :: t) :=
      spanP_cons_neg (hr c t rfl).1 t
    unfold matchAmount2
    rw [hspan1]
    simp [hne', hcsep, hspan2]

theorem matchAmount2_frac (ds : List Char) (sep : Char) (fs r : List Char) (hne : ds ≠ [])
    (hds : ∀ c ∈ ds, isDigitChar c = true) (hsep : isSepChar sep = true)
    (hfs : ∀ c ∈ fs, isDigitChar c = true) (hr : amountStopper r) :
    matchAmount2 (ds ++ sep :: (fs ++ r)) = some (ds ++ sep :: fs, r) := by
  have hsepd : isDigitChar sep = false := by
    rcases sep_cases hsep with h | h <;> (subst h; decide)
  have hspan1 : spanP isDigitChar (ds ++ sep :: (fs ++ r)) = (ds, sep :: (fs ++ r)) :=
    spanP_append isDigitChar ds _ hds (by intro c t h; cases h; exact hsepd)
  have hspan2 : spanP isDigitChar (fs ++ r) = (fs, r) :=
    spanP_append isDigitChar fs r hfs (fun c t h => (hr c t h).1)
  have hne' := list_isEmpty_false hne
  unfold matchAmount2
  rw [hspan1]
  simp [hne', hsep, hspan2]

theorem matchAmount1_whole (ds : List Char) (hne : ds ≠ [])
    (hds : ∀ c ∈ ds, isDigitChar c = true) :
    matchAmount1 ds = some (ds, []) := by
  have hspan1 := spanP_all isDigitChar ds hds
  have hne' := list_isEmpty_false hne
  unfold matchAmount1
  rw [hspan1]
  simp [hne', spanP_nil]

theorem matchAmount1_frac (ds : List Char) (sep : Char) (fs : List Char) (hne : ds ≠ [])
    (hds : ∀ c ∈ ds, isDigitChar c = true) (hsep : isSepChar sep = true)
    (hfs : ∀ c ∈ fs, isDigitChar c = true) :
    matchAmount1 (ds ++ sep :: fs) = some (ds ++ sep :: fs, []) := by
  have hsepd : isDigitChar sep = false := by
    rcases sep_cases hsep with h | h <;> (subst h; decide)
  have hspan1 : spanP isDigitChar (ds ++ sep :: fs) = (ds, sep :: fs) :=
    spanP_append isDigitChar ds _ hds (by intro c t h; cases h; exact hsepd)
  have hspan2 := spanP_all isDigitChar fs hfs
  have hne' := list_isEmpty_false hne
  unfold matchAmount1
  rw [hspan1]
  simp [hne', hsep, hspan2, spanP_nil]

theorem pyFloat_whole (ds : List Char) (hne : ds ≠ [])
    (hds : ∀ c ∈ ds, isDigitChar c = true) :
    pyFloat ds = some (digitsVal ds) := by
  have hspan := spanP_all isDigitChar ds hds
  unfold pyFloat
  rw [hspan]
  simp [list_isEmpty_false hne]

theorem pyFloat_frac (ds fs : List Char) (hne : ds ≠ [])
    (hds : ∀ c ∈ ds, isDigitChar c = true) (hfs : ∀ c ∈ fs, isDigitChar c = true) :
    pyFloat (ds ++ '.' :: fs) = some (digitsVal ds + digitsVal fs / 10 ^ fs.length) := by
  have hspan1 : spanP isDigitChar (ds ++ '.' :: fs) = (ds, '.' :: fs) :=
    spanP_append isDigitChar ds _ hds (by intro c t h; cases h; decide)
  have hspan2 := spanP_all isDigitChar fs hfs
  unfold pyFloat
  rw [hspan1]
  simp [hspan2, list_isEmpty_false hne]

theorem spanP_cons_pos {p : Char → Bool} {c : Char} (h : p c = true) (t : List Char) :
    spanP p (c :: t) = (c :: (spanP p t).1, (spanP p t).2) := by
  simp [spanP, h]

theorem priceSearch_currency_first (cur a : List Char) (d : Char) (a' : List Char)
    (ha : a = d :: a') (hd : isDigitChar d = true)
    (hcur : ∀ x, matchCurrency (cur ++ x) = some (cur, x))
    (hamt : matchAmount1 a = some (a, [])) :
    priceSearch (cur ++ a) = some ⟨some cur, some a, none, none⟩ := by
  have hAlt1 : matchAlt1 (cur ++ a) = some ⟨some cur, some a, none, none⟩ := by
    have hsp : spanP pyIsSpace a = ([], a) := by
      subst ha
      exact spanP_cons_neg (digit_not_space hd) a'
    unfold matchAlt1
    rw [hcur a]
    simp [hsp, hamt]
  obtain ⟨c, cs, hcc⟩ : ∃ c cs, cur = c :: cs := by
    cases hc : cur with
    | nil =>
      exfalso
      have h0 := hcur []
      rw [hc] at h0
      simp [matchCurrency] at h0
    | cons c cs => exact ⟨c, cs, rfl⟩
  subst hcc
  show priceSearch (c :: (cs ++ a)) = _
  unfold priceSearch
  rw [← List.cons_append, hAlt1]

theorem priceSearch_amount_first (cur a : List Char) (d : Char) (a' : List Char)
    (ha : a = d :: a') (hd : isDigitChar d = true)
    (hcur : ∀ x, matchCurrency (cur ++ x) = some (cur, x))
    (hcurhead : ∀ c t, cur = c :: t → pyIsSpace c = false)
    (hamt : matchAmount2 (a ++ ' ' :: cur) = some (a, ' ' :: cur)) :
    priceSearch (a ++ ' ' :: cur) = some ⟨none, none, some a, some cur⟩ := by
  have hAlt1 : matchAlt1 (a ++ ' ' :: cur) = none := by
    unfold matchAlt1
    subst ha
    rw [List.cons_append, matchCurrency_digit hd]
  have hsp : spanP pyIsSpace (' ' :: cur) = ([' '], cur) := by
    rw [spanP_cons_pos (show pyIsSpace ' ' = true by decide),
      spanP_head_neg cur hcurhead]
  have hcur0 : matchCurrency cur = some (cur, []) := by
    have := hcur []
    simpa using this
  have hAlt2 : matchAlt2 (a ++ ' ' :: cur) = some ⟨none, none, some a, some cur⟩ := by
    unfold matchAlt2
    rw [hamt]
    simp [hsp, hcur0]
  subst ha
  show priceSearch (d :: (a' ++ ' ' :: cur)) = _
  unfold priceSearch
  rw [← List.cons_append, hAlt1, hAlt2]

/-! ### Assembling `parse_price_unit` on clean inputs -/

theorem mk_isEmpty_false {l : List Char} (h : l ≠ []) :
    (String.mk l).isEmpty = false := by
  cases l with
  | nil => exact absurd rfl h
  | cons c t =>
    cases he : (String.mk (c :: t)).isEmpty
    · rfl
    · exfalso
      rw [String.isEmpty_iff] at he
      have : (c :: t) = ([] : List Char) := congrArg String.data he
      cases this

theorem map_nbsp_id (l : List Char) (h : ∀ c ∈ l, c ≠ '\xa0') :
    l.map (fun c => if c = '\xa0' then ' ' else c) = l := by
  induction l with
  | nil => rfl
  | cons c t ih =>
    simp only [List.map_cons]
    rw [if_neg (h c (by simp)), ih (fun c hc => h c (by simp [hc]))]

theorem filter_ne_space_id (l : List Char) (h : ∀ c ∈ l, c ≠ ' ') :
    l.filter (fun c => c ≠ ' ') = l := by
  induction l with
  | nil => rfl
  | cons c t ih =>
    rw [List.filter_cons_of_pos (by simp [h c (by simp)]),
      ih (fun c hc => h c (by simp [hc]))]

theorem map_comma_id (l : List Char) (h : ∀ c ∈ l, c ≠ ',') :
    l.map (fun c => if c = ',' then '.' else c) = l := by
  induction l with
  | nil => rfl
  | cons c t ih =>
    simp only [List.map_cons]
    rw [if_neg (h c (by simp)), ih (fun c hc => h c (by simp [hc]))]

theorem parse_components (t : List Char) (g : PriceGroups) (hne : t ≠ [])
    (hnb : ∀ c ∈ t, c ≠ '\xa0') (hstrip : pyStripL t = t)
    (hsearch : priceSearch t = some g) :
    (parse_price_unit (some (String.mk t))).1 =
      (let am := (((g.amount.orElse (fun _ => g.amount2)).getD []).filter
        (fun c => c ≠ ' ')).map (fun c => if c = ',' then '.' else c)
       if am.isEmpty then none else pyFloat am) ∧
    (parse_price_unit (some (String.mk t))).2.1 =
      some (let c := pyStrip (String.mk ((g.currency.orElse (fun _ => g.currency2)).getD []))
            if ¬ c.isEmpty ∧ pyStartsWith (pyUpper c) "E" then "€" else c) := by
  have hmap : (String.mk t).data.map (fun c => if c = '\xa0' then ' ' else c) = t :=
    map_nbsp_id t hnb
  simp only [parse_price_unit]
  rw [mk_isEmpty_false hne]
  simp only [Bool.false_eq_true, if_false, hmap, hstrip, hsearch]
  exact ⟨trivial, trivial⟩

theorem ds_not_nbsp {c : Char} (h : isDigitChar c = true ∨ isSepChar c = true) :
    c ≠ '\xa0' := by
  rcases h with h | h
  · exact digit_ne _ h (by decide)
  · rcases sep_cases h with h | h <;> (subst h; decide)

theorem ds_not_space_char {c : Char} (h : isDigitChar c = true ∨ isSepChar c = true) :
    c ≠ ' ' := by
  rcases h with h | h
  · exact digit_ne _ h (by decide)
  · rcases sep_cases h with h | h <;> (subst h; decide)

theorem ds_not_pySpace {c : Char} (h : isDigitChar c = true ∨ isSepChar c = true) :
    pyIsSpace c = false := by
  rcases h with h | h
  · exact digit_not_space h
  · rcases sep_cases h with h | h <;> (subst h; decide)

theorem pyStripL_id_of_no_space (l : List Char) (h : ∀ c ∈ l, pyIsSpace c = false) :
    pyStripL l = l := by
  refine pyStripL_id l ?_ ?_
  · intro c t hh
    exact h c (by rw [hh]; simp)
  · intro c t hh
    have hm : c ∈ l.reverse := by rw [hh]; simp
    exact h c (List.mem_reverse.mp hm)

/-- The shapes `"<amount> €"` and `"<amount> EUR"` of C1: the decimal
amounts accepted by the claim, as the amount list together with its intended
value. -/
inductive DecAmount : List Char → ℚ → Prop
  | whole (ds : List Char) (h1 : ds ≠ []) (h2 : ∀ c ∈ ds, isDigitChar c = true) :
      DecAmount ds (digitsVal ds)
  | withFrac (ds : List Char) (sep : Char) (fs : List Char) (h1 : ds ≠ [])
      (h2 : ∀ c ∈ ds, isDigitChar c = true) (h3 : isSepChar sep = true) (h4 : fs ≠ [])
      (h5 : ∀ c ∈ fs, isDigitChar c = true) :
      DecAmount (ds ++ sep :: fs) (digitsVal ds + digitsVal fs / 10 ^ fs.length)

theorem decAmount_head {a : List Char} {v : ℚ} (ha : DecAmount a v) :
    ∃ d a', a = d :: a' ∧ isDigitChar d = true := by
  cases ha with
  | whole ds h1 h2 =>
    cases a with
    | nil => exact absurd rfl h1
    | cons d ds' => exact ⟨d, ds', rfl, h2 d (by simp)⟩
  | withFrac ds sep fs h1 h2 h3 h4 h5 =>
    cases ds with
    | nil => exact absurd rfl h1
    | cons d ds' => exact ⟨d, ds' ++ sep :: fs, by simp, h2 d (by simp)⟩

theorem decAmount_chars {a : List Char} {v : ℚ} (ha : DecAmount a v) :
    ∀ c ∈ a, isDigitChar c = true ∨ isSepChar c = true := by
  cases ha with
  | whole ds h1 h2 => exact fun c hc => Or.inl (h2 c hc)
  | withFrac ds sep fs h1 h2 h3 h4 h5 =>
    intro c hc
    rcases List.mem_append.mp hc with h | h
    · exact Or.inl (h2 c h)
    · rcases List.mem_cons.mp h with rfl | h
      · exact Or.inr h3
      · exact Or.inl (h5 c h)

theorem decAmount_matchAmount1 {a : List Char} {v : ℚ} (ha : DecAmount a v) :
    matchAmount1 a = some (a, []) := by
  cases ha with
  | whole ds h1 h2 => exact matchAmount1_whole a h1 h2
  | withFrac ds sep fs h1 h2 h3 h4 h5 => exact matchAmount1_frac ds sep fs h1 h2 h3 h5

theorem decAmount_matchAmount2 {a : List Char} {v : ℚ} (ha : DecAmount a v)
    (r : List Char) (hr : amountStopper r) :
    matchAmount2 (a ++ r) = some (a, r) := by
  cases ha with
  | whole ds h1 h2 => exact matchAmount2_whole a r h1 h2 hr
  | withFrac ds sep fs h1 h2 h3 h4 h5 =>
    rw [List.append_assoc, List.cons_append]
    exact matchAmount2_frac ds sep fs r h1 h2 h3 h5 hr

theorem decAmount_pyFloat {a : List Char} {v : ℚ} (ha : DecAmount a v) :
    ∃ b, a.map (fun c => if c = ',' then '.' else c) = b ∧ b ≠ [] ∧ pyFloat b = some v := by
  cases ha with
  | whole ds h1 h2 =>
    refine ⟨a, ?_, h1, pyFloat_whole a h1 h2⟩
    exact map_comma_id a (fun c hc => digit_ne ',' (h2 c hc) (by decide))
  | withFrac ds sep fs h1 h2 h3 h4 h5 =>
    refine ⟨ds ++ '.' :: fs, ?_, by simp, pyFloat_frac ds fs h1 h2 h5⟩
    rw [List.map_append, List.map_cons,
      map_comma_id ds (fun c hc => digit_ne ',' (h2 c hc) (by decide)),
      map_comma_id fs (fun c hc => digit_ne ',' (h5 c hc) (by decide))]
    rcases sep_cases h3 with h | h <;> (subst h; simp)

theorem price_after_components (a : List Char) (v : ℚ) (cur : List Char)
    (ha : DecAmount a v) (hcur : cur = ['€'] ∨ cur = ['E', 'U', 'R']) :
    (parse_price_unit (some (String.mk (a ++ ' ' :: cur)))).1 = some v ∧
    (parse_price_unit (some (String.mk (a ++ ' ' :: cur)))).2.1 = some "€" := by
  obtain ⟨d, a', had, hd⟩ := decAmount_head ha
  have haDS := decAmount_chars ha
  have hcur3 : ∀ x, matchCurrency (cur ++ x) = some (cur, x) := by
    rcases hcur with h | h
    · subst h; exact fun x => matchCurrency_euro x
    · subst h; exact fun x => matchCurrency_eur x
  have hcurhead : ∀ c t, cur = c :: t → pyIsSpace c = false := by
    rcases hcur with h | h <;>
      (subst h; intro c t hh; injection hh with e1 _; subst e1; decide)
  have hcurnb : ∀ c ∈ cur, c ≠ '\xa0' := by
    rcases hcur with h | h
    · subst h
      intro c hc
      rcases List.mem_singleton.mp hc with rfl
      decide
    · subst h
      intro c hc
      simp only [List.mem_cons, List.mem_singleton, List.not_mem_nil, or_false] at hc
      rcases hc with rfl | rfl | rfl <;> decide
  have hstopper : amountStopper (' ' :: cur) := by
    intro c t hh
    injection hh with e1 _
    subst e1
    exact ⟨by decide, by decide⟩
  have hamt : matchAmount2 (a ++ ' ' :: cur) = some (a, ' ' :: cur) :=
    decAmount_matchAmount2 ha (' ' :: cur) hstopper
  have hsearch : priceSearch (a ++ ' ' :: cur) = some ⟨none, none, some a, some cur⟩ :=
    priceSearch_amount_first cur a d a' had hd hcur3 hcurhead hamt
  have hne : a ++ ' ' :: cur ≠ [] := by simp
  have hnb : ∀ c ∈ a ++ ' ' :: cur, c ≠ '\xa0' := by
    intro c hc
    rcases List.mem_append.mp hc with h | h
    · exact ds_not_nbsp (haDS c h)
    · rcases List.mem_cons.mp h with rfl | h
      · decide
      · exact hcurnb c h
  have hstrip : pyStripL (a ++ ' ' :: cur) = a ++ ' ' :: cur := by
    refine pyStripL_id _ ?_ ?_
    · intro c t hh
      rw [had, List.cons_append] at hh
      injection hh with e1 _
      subst e1
      exact digit_not_space hd
    · intro c t hh
      rcases hcur with h | h <;> subst h
      · rw [show (a ++ ' ' :: ['€']).reverse = '€' :: ' ' :: a.reverse by simp] at hh
        injection hh with e1 _
        subst e1
        decide
      · rw [show (a ++ ' ' :: ['E', 'U', 'R']).reverse =
            'R' :: 'U' :: 'E' :: ' ' :: a.reverse by simp] at hh
        injection hh with e1 _
        subst e1
        decide
  obtain ⟨e1, e2⟩ := parse_components (a ++ ' ' :: cur) _ hne hnb hstrip hsearch
  have hfil : a.filter (fun c => c ≠ ' ') = a :=
    filter_ne_space_id a (fun c hc => ds_not_space_char (haDS c hc))
  obtain ⟨b, hb1, hb2, hb3⟩ := decAmount_pyFloat ha
  constructor
  · rw [e1]
    simp only [Option.orElse, Option.getD, hfil, hb1, list_isEmpty_false hb2,
      Bool.false_eq_true, if_false]
    exact hb3
  · rw [e2]
    rcases hcur with h | h <;> subst h <;>
      (simp only [Option.orElse, Option.getD]; decide)

theorem price_before_components (a : List Char) (v : ℚ) (cur : List Char)
    (ha : DecAmount a v) (hcur : cur = ['€'] ∨ cur = ['E', 'U', 'R']) :
    (parse_price_unit (some (String.mk (cur ++ a)))).1 = some v ∧
    (parse_price_unit (some (String.mk (cur ++ a)))).2.1 = some "€" := by
  obtain ⟨d, a', had, hd⟩ := decAmount_head ha
  have haDS := decAmount_chars ha
  have hcur3 : ∀ x, matchCurrency (cur ++ x) = some (cur, x) := by
    rcases hcur with h | h
    · subst h; exact fun x => matchCurrency_euro x
    · subst h; exact fun x => matchCurrency_eur x
  have hsearch : priceSearch (cur ++ a) = some ⟨some cur, some a, none, none⟩ :=
    priceSearch_currency_first cur a d a' had hd hcur3 (decAmount_matchAmount1 ha)
  have hne : cur ++ a ≠ [] := by
    rw [had]
    rcases hcur with h | h <;> (subst h; simp)
  have hnb : ∀ c ∈ cur ++ a, c ≠ '\xa0' := by
    intro c hc
    rcases List.mem_append.mp hc with h | h
    · rcases hcur with hc2 | hc2 <;> subst hc2
      · rcases List.mem_singleton.mp h with rfl
        decide
      · simp only [List.mem_cons, List.mem_singleton, List.not_mem_nil, or_false] at h
        rcases h with rfl | rfl | rfl <;> decide
    · exact ds_not_nbsp (haDS c h)
  have hstrip : pyStripL (cur ++ a) = cur ++ a := by
    refine pyStripL_id_of_no_space _ ?_
    intro c hc
    rcases List.mem_append.mp hc with h | h
    · rcases hcur with hc2 | hc2 <;> subst hc2
      · rcases List.mem_singleton.mp h with rfl
        decide
      · simp only [List.mem_cons, List.mem_singleton, List.not_mem_nil, or_false] at h
        rcases h with rfl | rfl | rfl <;> decide
    · exact ds_not_pySpace (haDS c h)
  obtain ⟨e1, e2⟩ := parse_components (cur ++ a) _ hne hnb hstrip hsearch
  have hfil : a.filter (fun c => c ≠ ' ') = a :=
    filter_ne_space_id a (fun c hc => ds_not_space_char (haDS c hc))
  obtain ⟨b, hb1, hb2, hb3⟩ := decAmount_pyFloat ha
  constructor
  · rw [e1]
    simp only [Option.orElse, Option.getD, hfil, hb1, list_isEmpty_false hb2,
      Bool.false_eq_true, if_false]
    exact hb3
  · rw [e2]
    rcases hcur with h | h <;> subst h <;>
      (simp only [Option.orElse, Option.getD]; decide)

/--
C1: for every price string of the shape `"<amount> €"` or `"€<amount>"` (also
with `"EUR"` in place of the euro sign), where the amount is a decimal number
using either `.` or `,` as the decimal separator, `parse_price_unit` returns
currency `"€"` and a value equal to the intended decimal value of the amount
(exactly, in the rational model of `float`).
-/
theorem C1_price_normalizer (a : List Char) (v : ℚ) (cur : List Char)
    (ha : DecAmount a v) (hcur : cur = ['€'] ∨ cur = ['E', 'U', 'R']) :
    (parse_price_unit (some (String.mk (a ++ ' ' :: cur)))).1 = some v ∧
    (parse_price_unit (some (String.mk (a ++ ' ' :: cur)))).2.1 = some "€" ∧
    (parse_price_unit (some (String.mk (cur ++ a)))).1 = some v ∧
    (parse_price_unit (some (String.mk (cur ++ a)))).2.1 = some "€" := by
  obtain ⟨e1, e2⟩ := price_after_components a v cur ha hcur
  obtain ⟨e3, e4⟩ := price_before_components a v cur ha hcur
  exact ⟨e1, e2, e3, e4⟩

/-- Witness for C1 at the concrete inputs `"19,95 €"` and `"€19,95"`. -/
theorem C1_price_normalizer_witness :
    (parse_price_unit (some "19,95 €")).1 = some (1995 / 100 : ℚ) ∧
    (parse_price_unit (some "19,95 €")).2.1 = some "€" ∧
    (parse_price_unit (some "€19,95")).1 = some (1995 / 100 : ℚ) ∧
    (parse_price_unit (some "€19,95")).2.1 = some "€" := by
  have h := C1_price_normalizer ['1', '9', ',', '9', '5'] (1995 / 100 : ℚ) ['€']
    (by
      have := DecAmount.withFrac ['1', '9'] ',' ['9', '5'] (by decide)
        (by decide) (by decide) (by decide) (by decide)
      have he : digitsVal ['1', '9'] + digitsVal ['9', '5'] / 10 ^ (['9', '5'].length) =
          (1995 / 100 : ℚ) := by
        norm_num [digitsVal, List.foldl_cons, List.foldl_nil,
          show ('1' : Char).toNat = 49 from rfl, show ('9' : Char).toNat = 57 from rfl,
          show ('5' : Char).toNat = 53 from rfl]
      rw [he] at this
      exact this)
    (Or.inl rfl)
  exact h

/-! ## Stable identity (`stable_id`, lines 62-63)

```
def stable_id(*parts: str) -> str:
    return hashlib.sha256("|".join([p or "" for p in parts]).encode("utf-8")).hexdigest()[:16]
```

SHA-256 is implemented from FIPS 180-4 over `Nat` with explicit reduction
modulo `2^32`.  Its constants are derived, as in the standard, from the
fractional parts of the square and cube roots of the first primes, computed
here by integer root extraction instead of being transcribed. -/

/-- Reduction modulo `2^32`. -/
def w32 (x : Nat) : Nat := x % 4294967296

/-- 32-bit right rotation. -/
def rotr32 (n x : Nat) : Nat := w32 ((x >>> n) ||| (x <<< (32 - n)))

/-- Binary-search step for the integer cube root. -/
def icbrtAux (n : Nat) : Nat → Nat → Nat → Nat
  | 0, lo, _ => lo
  | fuel + 1, lo, hi =>
    if hi ≤ lo + 1 then lo
    else
      let mid := (lo + hi) / 2
      if mid * mid * mid ≤ n then icbrtAux n fuel mid hi else icbrtAux n fuel lo mid

/-- Integer cube root (largest `r` with `r^3 ≤ n`, for `n < 2^200`). -/
def icbrt (n : Nat) : Nat := icbrtAux n 200 0 (n + 1)

/-- Binary-search step for the integer square root. -/
def isqrtAux (n : Nat) : Nat → Nat → Nat → Nat
  | 0, lo, _ => lo
  | fuel + 1, lo, hi =>
    if hi ≤ lo + 1 then lo
    else
      let mid := (lo + hi) / 2
      if mid * mid ≤ n then isqrtAux n fuel mid hi else isqrtAux n fuel lo mid

/-- Integer square root (largest `r` with `r^2 ≤ n`, for `n < 2^200`). -/
def isqrt (n : Nat) : Nat := isqrtAux n 200 0 (n + 1)

/-- The first 64 primes. -/
def primes64 : List Nat :=
  [2, 3, 5, 7, 11, 13, 17, 19, 23, 29, 31, 37, 41, 43, 47, 53, 59, 61, 67, 71,
   73, 79, 83, 89, 97, 101, 103, 107, 109, 113, 127, 131, 137, 139, 149, 151,
   157, 163, 167, 173, 179, 181, 191, 193, 197, 199, 211, 223, 227, 229, 233,
   239, 241, 251, 257, 263, 269, 271, 277, 281, 283, 293, 307, 311]

/-- SHA-256 round constants: fractional parts of the cube roots of the first
64 primes (`floor(cbrt(p) * 2^32) mod 2^32`). -/
def sha256K : List Nat := primes64.map (fun p => w32 (icbrt (p * 2 ^ 96)))

/-- SHA-256 initial hash: fractional parts of the square roots of the first
8 primes. -/
def sha256H0 : List Nat := (primes64.take 8).map (fun p => w32 (isqrt (p * 2 ^ 64)))

/-- UTF-8 encoding of one code point. -/
def utf8EncodeChar (c : Char) : List Nat :=
  let n := c.toNat
  if n < 128 then [n]
  else if n < 2048 then [192 ||| (n >>> 6), 128 ||| (n &&& 63)]
  else if n < 65536 then
    [224 ||| (n >>> 12), 128 ||| ((n >>> 6) &&& 63), 128 ||| (n &&& 63)]
  else
    [240 ||| (n >>> 18), 128 ||| ((n >>> 12) &&& 63), 128 ||| ((n >>> 6) &&& 63),
     128 ||| (n &&& 63)]

/-- Python `s.encode("utf-8")` as a byte list. -/
def utf8Encode (s : String) : List Nat := (s.data.map utf8EncodeChar).flatten

/-- Big-endian byte rendering of `n` on `k` bytes. -/
def beBytes (k : Nat) (n : Nat) : List Nat :=
  (List.range k).reverse.map (fun i => (n >>> (8 * i)) % 256)

/-- FIPS 180-4 padding: a 0x80 byte, zeros to 56 mod 64, and the bit length
on 8 bytes. -/
def sha256Pad (msg : List Nat) : List Nat :=
  msg ++ [128] ++ List.replicate ((119 - msg.length % 64) % 64) 0 ++
    beBytes 8 (8 * msg.length)

/-- Big-endian 32-bit words from a byte list (whose length is a multiple
of 4). -/
def bytesToWords : List Nat → List Nat
  | b1 :: b2 :: b3 :: b4 :: rest =>
    (((b1 * 256 + b2) * 256 + b3) * 256 + b4) :: bytesToWords rest
  | _ => []

/-- Split a word list into 16-word blocks. -/
def chunkWords : List Nat → List (List Nat)
  | [] => []
  | w :: ws => ((w :: ws).take 16) :: chunkWords ((w :: ws).drop 16)
termination_by ws => ws.length
decreasing_by simp; omega

def smallSigma0 (x : Nat) : Nat := (rotr32 7 x) ^^^ (rotr32 18 x) ^^^ (x >>> 3)

def smallSigma1 (x : Nat) : Nat := (rotr32 17 x) ^^^ (rotr32 19 x) ^^^ (x >>> 10)

def bigSigma0 (x : Nat) : Nat := (rotr32 2 x) ^^^ (rotr32 13 x) ^^^ (rotr32 22 x)

def bigSigma1 (x : Nat) : Nat := (rotr32 6 x) ^^^ (rotr32 11 x) ^^^ (rotr32 25 x)

def chF (x y z : Nat) : Nat := (x &&& y) ^^^ ((x ^^^ 4294967295) &&& z)

def majF (x y z : Nat) : Nat := (x &&& y) ^^^ (x &&& z) ^^^ (y &&& z)

/-- Message-schedule extension from 16 to 64 words (48 steps). -/
def extendSchedule : Nat → List Nat → List Nat
  | 0, ws => ws
  | fuel + 1, ws =>
    let n := ws.length
    let w := w32 (smallSigma1 (ws.getD (n - 2) 0) + ws.getD (n - 7) 0 +
      smallSigma0 (ws.getD (n - 15) 0) + ws.getD (n - 16) 0)
    extendSchedule fuel (ws ++ [w])

/-- One SHA-256 round on the working variables `[a,b,c,d,e,f,g,h]`. -/
def roundStep : List Nat → Nat × Nat → List Nat
  | [a, b, c, d, e, f, g, h], (k, w) =>
    let t1 := w32 (h + bigSigma1 e + chF e f g + k + w)
    let t2 := w32 (bigSigma0 a + majF a b c)
    [w32 (t1 + t2), a, b, c, w32 (d + t1), e, f, g]
  | s, _ => s

/-- Compress one 16-word block into the running hash. -/
def compressBlock (h : List Nat) (block : List Nat) : List Nat :=
  let s := ((sha256K.zip (extendSchedule 48 block)).foldl roundStep h)
  (h.zip s).map (fun p => w32 (p.1 + p.2))

/-- SHA-256 digest (32 bytes) of a byte list. -/
def sha256Bytes (msg : List Nat) : List Nat :=
  (((chunkWords (bytesToWords (sha256Pad msg))).foldl compressBlock sha256H0).map
    (beBytes 4)).flatten

/-- Lower-case hex digit. -/
def hexDigit (n : Nat) : Char :=
  if n < 10 then Char.ofNat (48 + n) else Char.ofNat (87 + n)

/-- `hashlib.sha256(...).hexdigest()`. -/
def sha256Hex (msg : List Nat) : List Char :=
  ((sha256Bytes msg).map (fun b => [hexDigit (b / 16), hexDigit (b % 16)])).flatten

/-- Embeds `stable_id` (lines 62-63).  The Python `p or ""` guard maps `None`
parts to `""`; all call sites pass strings, modelled as `List String`. -/
def stable_id (parts : List String) : String :=
  String.mk ((sha256Hex (utf8Encode
    (String.mk (((parts.map String.data).intersperse ['|']).flatten)))).take 16)

/-! ## Paginator (`paginate`, lines 107-113)

```
def paginate(url, param, start, max_pages):
    parsed = urlparse(url)
    q = parse_qs(parsed.query)
    for p in range(start, start + max_pages):
        q[param] = [str(p)]
        new_q = urlencode({k: (v[0] if isinstance(v, list) else v) for k, v in q.items()})
        yield urlunparse(parsed._replace(query=new_q))
```

The `urllib.parse` functions used are modelled below for absolute
`scheme://netloc/path?query#fragment` URLs: `parse_qs` percent/plus-decodes,
drops empty-valued and `=`-less fields, and groups duplicate keys in
first-occurrence order; `urlencode` takes only the first value of each key
and quote-plus-encodes; `urlunparse` reassembles.  Percent-escapes are
decoded bytewise (multi-byte UTF-8 sequences are not recombined; none occur
in the scraper's config URLs). -/

/-- Split at the first occurrence of `c`: `(before, some after)` if present. -/
def splitFirst (c : Char) : List Char → List Char × Option (List Char)
  | [] => ([], none)
  | x :: xs =>
    if x = c then ([], some xs)
    else
      let r := splitFirst c xs
      (x :: r.1, r.2)

/-- Python `str.split(c)`. -/
def splitAll (c : Char) : List Char → List (List Char)
  | [] => [[]]
  | x :: xs =>
    let r := splitAll c xs
    if x = c then [] :: r
    else
      match r with
      | h :: t => (x :: h) :: t
      | [] => [[x]]

/-- The components of `urlparse` used by `paginate` (the `params` component
is always empty for the scraper's URLs). -/
structure UrlParts where
  scheme : List Char
  netloc : List Char
  path : List Char
  query : List Char
  fragment : List Char
deriving Repr, DecidableEq

/-- Find the first `"://"` and split the scheme off. -/
def splitSchemeAux : List Char → Option (List Char × List Char)
  | [] => none
  | x :: xs =>
    if x = ':' then
      match xs with
      | '/' :: '/' :: rest => some ([], rest)
      | _ => (splitSchemeAux xs).map (fun r => (x :: r.1, r.2))
    else (splitSchemeAux xs).map (fun r => (x :: r.1, r.2))

/-- Model of `urllib.parse.urlparse` for absolute URLs. -/
def urlparse (cs : List Char) : UrlParts :=
  let f := splitFirst '#' cs
  let frag := f.2.getD []
  let qsplit := splitFirst '?' f.1
  let q := qsplit.2.getD []
  match splitSchemeAux qsplit.1 with
  | some (sch, rest) =>
    let nsplit := splitFirst '/' rest
    let path := match nsplit.2 with
      | some p => '/' :: p
      | none => []
    ⟨sch, nsplit.1, path, q, frag⟩
  | none => ⟨[], [], qsplit.1, q, frag⟩

/-- Hex digit value. -/
def hexVal (c : Char) : Option Nat :=
  if 48 ≤ c.toNat ∧ c.toNat ≤ 57 then some (c.toNat - 48)
  else if 97 ≤ c.toNat ∧ c.toNat ≤ 102 then some (c.toNat - 87)
  else if 65 ≤ c.toNat ∧ c.toNat ≤ 70 then some (c.toNat - 55)
  else none

/-- `urllib.parse.unquote_plus` (bytewise). -/
def unquotePlus : List Char → List Char
  | [] => []
  | '+' :: rest => ' ' :: unquotePlus rest
  | '%' :: a :: b :: rest =>
    match hexVal a, hexVal b with
    | some ha, some hb => Char.ofNat (ha * 16 + hb) :: unquotePlus rest
    | _, _ => '%' :: unquotePlus (a :: b :: rest)
  | x :: rest => x :: unquotePlus rest

/-- `urllib.parse.parse_qsl` with the default `keep_blank_values=False`:
empty fields, fields without `=` and empty-valued fields are dropped. -/
def parse_qsl (q : List Char) : List (List Char × List Char) :=
  (splitAll '&' q).filterMap (fun nv =>
    if nv.isEmpty then none
    else
      match splitFirst '=' nv with
      | (_, none) => none
      | (n, some v) =>
        if v.isEmpty then none else some (unquotePlus n, unquotePlus v))

/-- Grouping step of `parse_qs`: append the value to an existing key (kept in
place) or append a new key. -/
def qsGroupInsert (acc : List (List Char × List (List Char)))
    (nv : List Char × List Char) : List (List Char × List (List Char)) :=
  if acc.any (fun p => p.1 = nv.1) then
    acc.map (fun p => if p.1 = nv.1 then (p.1, p.2 ++ [nv.2]) else p)
  else acc ++ [(nv.1, [nv.2])]

/-- `urllib.parse.parse_qs`. -/
def parse_qs (q : List Char) : List (List Char × List (List Char)) :=
  (parse_qsl q).foldl qsGroupInsert []

/-- The characters `quote_plus` leaves unescaped (Python's always-safe set,
with `safe=''`). -/
def isUrlSafe (c : Char) : Bool :=
  c.isAlphanum || c == '_' || c == '.' || c == '-' || c == '~'

/-- Upper-case hex digit. -/
def hexDigitU (n : Nat) : Char :=
  if n < 10 then Char.ofNat (48 + n) else Char.ofNat (55 + n)

/-- `urllib.parse.quote_plus`. -/
def quotePlus (cs : List Char) : List Char :=
  (cs.map (fun c =>
    if isUrlSafe c then [c]
    else if c = ' ' then ['+']
    else ((utf8EncodeChar c).map
      (fun b => ['%', hexDigitU (b / 16), hexDigitU (b % 16)])).flatten)).flatten

/-- `urllib.parse.urlencode` on string-valued pairs. -/
def urlencode (q : List (List Char × List Char)) : List Char :=
  ((q.map (fun p => quotePlus p.1 ++ '=' :: quotePlus p.2)).intersperse ['&']).flatten

/-- `urllib.parse.urlunparse` (empty `params`). -/
def urlunparse (u : UrlParts) : List Char :=
  let url0 := u.path
  let url1 :=
    if ¬ u.netloc.isEmpty ∨ url0.take 2 = ['/', '/'] then
      '/' :: '/' :: (u.netloc ++
        (if ¬ url0.isEmpty ∧ url0.take 1 ≠ ['/'] then '/' :: url0 else url0))
    else url0
  let url2 := if ¬ u.scheme.isEmpty then u.scheme ++ ':' :: url1 else url1
  let url3 := if ¬ u.query.isEmpty then url2 ++ '?' :: u.query else url2
  if ¬ u.fragment.isEmpty then url3 ++ '#' :: u.fragment else url3

/-- Python `str(n)` for a natural number. -/
def natDigitsAux : Nat → Nat → List Char
  | 0, _ => []
  | fuel + 1, n =>
    if n < 10 then [Char.ofNat (48 + n)]
    else natDigitsAux fuel (n / 10) ++ [Char.ofNat (48 + n % 10)]

/-- Python `str(n)` for a natural number. -/
def natDigits (n : Nat) : List Char := natDigitsAux (n + 1) n

/-- `q[param] = [str(p)]` on the ordered dict model. -/
def qSet (q : List (List Char × List (List Char))) (k : List Char)
    (v : List (List Char)) : List (List Char × List (List Char)) :=
  if q.any (fun p => p.1 = k) then q.map (fun p => if p.1 = k then (k, v) else p)
  else q ++ [(k, v)]

/-- The loop of `paginate`, threading the mutated dict `q`. -/
def paginateGo (parsed : UrlParts) (param : List Char) :
    List (List Char × List (List Char)) → Nat → Nat → List String
  | _, _, 0 => []
  | q, p, n + 1 =>
    let q' := qSet q param [natDigits p]
    let newq := urlencode (q'.map (fun kv => (kv.1, kv.2.headD [])))
    String.mk (urlunparse { parsed with query := newq }) ::
      paginateGo parsed param q' (p + 1) n

/-- Embeds `paginate` (lines 107-113). -/
def paginate (url param : String) (start max_pages : Nat) : List String :=
  let parsed := urlparse url.data
  paginateGo parsed param.data (parse_qs parsed.query) start max_pages

/-! ### C4: the query serialization `paginate` should preserve -/

/-- The literal `&`-joined `k=v` serialization of a query — what byte-for-byte
preservation of the query means. -/
def buildQuery (q : List (List Char × List Char)) : List Char :=
  ((q.map (fun kv => kv.1 ++ '=' :: kv.2)).intersperse ['&']).flatten

/-- The query part of a URL built from `k=v` pairs. -/
def queryPart (pairs : List (List Char × List Char)) : List Char :=
  if pairs.isEmpty then [] else '?' :: buildQuery pairs

/-- Characters allowed in the host component of the amended C4. -/
def isHostChar (c : Char) : Bool := c.isAlphanum || c == '.' || c == '-'

/-- Characters allowed in the path component of the amended C4. -/
def isPathChar (c : Char) : Bool :=
  c.isAlphanum || c == '/' || c == '.' || c == '-' || c == '_' || c == '~'

theorem char_ne_of_class {P : Char → Bool} {c x : Char} (h : P c = true)
    (hx : P x = false) : c ≠ x := by
  intro he
  subst he
  rw [h] at hx
  cases hx

theorem splitFirst_not_mem (c : Char) (l : List Char) (h : ∀ x ∈ l, x ≠ c) :
    splitFirst c l = (l, none) := by
  induction l with
  | nil => rfl
  | cons x xs ih =>
    unfold splitFirst
    rw [if_neg (h x (by simp)), ih (fun y hy => h y (by simp [hy]))]

theorem splitFirst_append (c : Char) (pre rest : List Char) (h : ∀ x ∈ pre, x ≠ c) :
    splitFirst c (pre ++ c :: rest) = (pre, some rest) := by
  induction pre with
  | nil => simp [splitFirst]
  | cons x xs ih =>
    simp only [List.cons_append]
    unfold splitFirst
    rw [if_neg (h x (by simp)), ih (fun y hy => h y (by simp [hy]))]

theorem splitAll_not_mem (c : Char) (l : List Char) (h : ∀ x ∈ l, x ≠ c) :
    splitAll c l = [l] := by
  induction l with
  | nil => rfl
  | cons x xs ih =>
    unfold splitAll
    rw [ih (fun y hy => h y (by simp [hy])), if_neg (h x (by simp))]

theorem splitAll_append (c : Char) (pre rest : List Char) (h : ∀ x ∈ pre, x ≠ c) :
    splitAll c (pre ++ c :: rest) = pre :: splitAll c rest := by
  induction pre with
  | nil =>
    simp only [List.nil_append]
    conv_lhs => unfold splitAll
    rw [if_pos rfl]
  | cons x xs ih =>
    simp only [List.cons_append]
    conv_lhs => unfold splitAll
    rw [ih (fun y hy => h y (by simp [hy])), if_neg (h x (by simp))]

theorem unquotePlus_cons_safe {x : Char} (h1 : x ≠ '+') (h2 : x ≠ '%')
    (xs : List Char) : unquotePlus (x :: xs) = x :: unquotePlus xs := by
  cases xs with
  | nil => simp [unquotePlus, h1, h2]
  | cons a t =>
    cases t with
    | nil => simp [unquotePlus, h1, h2]
    | cons b t' => simp [unquotePlus, h1, h2]

theorem unquotePlus_safe (l : List Char) (h : ∀ c ∈ l, isUrlSafe c = true) :
    unquotePlus l = l := by
  induction l with
  | nil => rfl
  | cons x xs ih =>
    have hx := h x (by simp)
    rw [unquotePlus_cons_safe (char_ne_of_class hx (by decide))
      (char_ne_of_class hx (by decide)), ih (fun y hy => h y (by simp [hy]))]

theorem quotePlus_safe (l : List Char) (h : ∀ c ∈ l, isUrlSafe c = true) :
    quotePlus l = l := by
  induction l with
  | nil => rfl
  | cons x xs ih =>
    unfold quotePlus
    simp only [List.map_cons, List.flatten_cons, if_pos (h x (by simp))]
    have := ih (fun y hy => h y (by simp [hy]))
    unfold quotePlus at this
    rw [this]
    rfl

theorem urlencode_safe (q : List (List Char × List Char))
    (h : ∀ kv ∈ q, (∀ c ∈ kv.1, isUrlSafe c = true) ∧ (∀ c ∈ kv.2, isUrlSafe c = true)) :
    urlencode q = buildQuery q := by
  unfold urlencode buildQuery
  have : q.map (fun p => quotePlus p.1 ++ '=' :: quotePlus p.2) =
      q.map (fun kv => kv.1 ++ '=' :: kv.2) := by
    apply List.map_congr_left
    intro kv hkv
    rw [quotePlus_safe _ (h kv hkv).1, quotePlus_safe _ (h kv hkv).2]
  rw [this]

theorem buildQuery_cons_ne (kv : List Char × List Char)
    (rest : List (List Char × List Char)) (hrest : rest ≠ []) :
    buildQuery (kv :: rest) = (kv.1 ++ '=' :: kv.2) ++ '&' :: buildQuery rest := by
  cases rest with
  | nil => exact absurd rfl hrest
  | cons kv2 rest2 => simp [buildQuery, List.intersperse]

theorem buildQuery_single (kv : List Char × List Char) :
    buildQuery [kv] = kv.1 ++ '=' :: kv.2 := by
  simp [buildQuery]

/-- Within-field and between-field characters of a clean query. -/
theorem buildQuery_chars (pairs : List (List Char × List Char))
    (h : ∀ kv ∈ pairs, (∀ c ∈ kv.1, isUrlSafe c = true) ∧ (∀ c ∈ kv.2, isUrlSafe c = true)) :
    ∀ c ∈ buildQuery pairs, isUrlSafe c = true ∨ c = '=' ∨ c = '&' := by
  induction pairs with
  | nil => intro c hc; simp [buildQuery] at hc
  | cons kv rest ih =>
    intro c hc
    by_cases hr : rest = []
    · subst hr
      rw [buildQuery_single] at hc
      rcases List.mem_append.mp hc with h1 | h1
      · exact Or.inl ((h kv (by simp)).1 c h1)
      · rcases List.mem_cons.mp h1 with rfl | h1
        · exact Or.inr (Or.inl rfl)
        · exact Or.inl ((h kv (by simp)).2 c h1)
    · rw [buildQuery_cons_ne kv rest hr] at hc
      rcases List.mem_append.mp hc with h1 | h1
      · rcases List.mem_append.mp h1 with h2 | h2
        · exact Or.inl ((h kv (by simp)).1 c h2)
        · rcases List.mem_cons.mp h2 with rfl | h2
          · exact Or.inr (Or.inl rfl)
          · exact Or.inl ((h kv (by simp)).2 c h2)
      · rcases List.mem_cons.mp h1 with rfl | h1
        · exact Or.inr (Or.inr rfl)
        · exact ih (fun a ha => h a (by simp [ha])) c h1

/-- Bundled well-formedness of the query pairs used in the amended C4. -/
def cleanPairs (pairs : List (List Char × List Char)) : Prop :=
  ∀ kv ∈ pairs, kv.1 ≠ [] ∧ kv.2 ≠ [] ∧
    (∀ c ∈ kv.1, isUrlSafe c = true) ∧ (∀ c ∈ kv.2, isUrlSafe c = true)

theorem parse_qsl_clean (pairs : List (List Char × List Char))
    (h : cleanPairs pairs) : parse_qsl (buildQuery pairs) = pairs := by
  induction pairs with
  | nil => rfl
  | cons kv rest ih =>
    obtain ⟨hk, hv, hkC, hvC⟩ := h kv (by simp)
    have hfield : ∀ x ∈ kv.1 ++ '=' :: kv.2, x ≠ '&' := by
      intro x hx
      rcases List.mem_append.mp hx with h1 | h1
      · exact char_ne_of_class (hkC x h1) (by decide)
      · rcases List.mem_cons.mp h1 with rfl | h1
        · decide
        · exact char_ne_of_class (hvC x h1) (by decide)
    have hkeq : ∀ x ∈ kv.1, x ≠ '=' := fun x hx =>
      char_ne_of_class (hkC x hx) (by decide)
    have hfieldProc :
        (if (kv.1 ++ '=' :: kv.2).isEmpty then none
         else match splitFirst '=' (kv.1 ++ '=' :: kv.2) with
           | (_, none) => none
           | (n, some v) =>
             if v.isEmpty then none else some (unquotePlus n, unquotePlus v)) =
          some kv := by
      rw [splitFirst_append '=' kv.1 kv.2 hkeq]
      have h1 : (kv.1 ++ '=' :: kv.2).isEmpty = false := by
        cases kv.1 <;> rfl
      rw [h1]
      simp only [Bool.false_eq_true, if_false]
      rw [list_isEmpty_false hv]
      simp only [Bool.false_eq_true, if_false]
      rw [unquotePlus_safe kv.1 hkC, unquotePlus_safe kv.2 hvC]
    by_cases hr : rest = []
    · subst hr
      rw [buildQuery_single]
      unfold parse_qsl
      rw [splitAll_not_mem '&' _ hfield]
      simp only [List.filterMap_cons, List.filterMap_nil]
      rw [hfieldProc]
    · rw [buildQuery_cons_ne kv rest hr]
      unfold parse_qsl
      rw [show kv.1 ++ '=' :: kv.2 ++ '&' :: buildQuery rest =
        (kv.1 ++ '=' :: kv.2) ++ '&' :: buildQuery rest by simp]
      rw [splitAll_append '&' _ _ hfield]
      simp only [List.filterMap_cons]
      rw [hfieldProc]
      have ihh := ih (fun a ha => h a (by simp [ha]))
      unfold parse_qsl at ihh
      rw [ihh]

theorem foldl_qsGroupInsert (l : List (List Char × List Char)) :
    ∀ acc : List (List Char × List (List Char)),
      (∀ kv ∈ l, ∀ p ∈ acc, p.1 ≠ kv.1) → (l.map Prod.fst).Nodup →
      List.foldl qsGroupInsert acc l = acc ++ l.map (fun kv => (kv.1, [kv.2])) := by
  induction l with
  | nil => intro acc _ _; simp
  | cons kv t ih =>
    intro acc hacc hnd
    have hany : (acc.any (fun p => p.1 = kv.1)) = false := by
      rw [List.any_eq_false]
      intro p hp
      simp only [decide_eq_true_eq]
      exact hacc kv (by simp) p hp
    have hstep : qsGroupInsert acc (kv.1, kv.2) = acc ++ [(kv.1, [kv.2])] := by
      unfold qsGroupInsert
      rw [if_neg (by simp [hany])]
    have hnd' : (kv.1 :: t.map Prod.fst).Nodup := by simpa using hnd
    have hk : kv.1 ∉ t.map Prod.fst := (List.nodup_cons.mp hnd').1
    have ht := ih (acc ++ [(kv.1, [kv.2])]) ?_ ?_
    · simp only [List.foldl_cons]
      rw [show qsGroupInsert acc kv = acc ++ [(kv.1, [kv.2])] from hstep, ht]
      simp
    · intro kv2 hkv2 p hp
      rcases List.mem_append.mp hp with h1 | h1
      · exact hacc kv2 (by simp [hkv2]) p h1
      · rcases List.mem_singleton.mp h1 with rfl
        intro he
        exact hk (by rw [he]; exact List.mem_map_of_mem Prod.fst hkv2)
    · exact (List.nodup_cons.mp hnd').2

theorem parse_qs_clean (pairs : List (List Char × List Char))
    (h : cleanPairs pairs) (hnd : (pairs.map Prod.fst).Nodup) :
    parse_qs (buildQuery pairs) = pairs.map (fun kv => (kv.1, [kv.2])) := by
  unfold parse_qs
  rw [parse_qsl_clean pairs h]
  simpa using foldl_qsGroupInsert pairs [] (by intro kv _ p hp; simp at hp) hnd

theorem splitSchemeAux_clean (scheme rest : List Char)
    (h : ∀ c ∈ scheme, c ≠ ':') :
    splitSchemeAux (scheme ++ ':' :: '/' :: '/' :: rest) = some (scheme, rest) := by
  induction scheme with
  | nil =>
    simp only [List.nil_append]
    unfold splitSchemeAux
    rw [if_pos rfl]
    rfl
  | cons x xs ih =>
    simp only [List.cons_append]
    conv_lhs => unfold splitSchemeAux
    rw [if_neg (h x (by simp)), ih (fun y hy => h y (by simp [hy]))]
    rfl

theorem urlparse_clean_q (scheme host path qs : List Char)
    (hsC : ∀ c ∈ scheme, c ≠ ':' ∧ c ≠ '#' ∧ c ≠ '?')
    (hhC : ∀ c ∈ host, c ≠ '/' ∧ c ≠ '#' ∧ c ≠ '?')
    (hpC : path = [] ∨ ((∃ p', path = '/' :: p') ∧ ∀ c ∈ path, c ≠ '#' ∧ c ≠ '?'))
    (hqC : ∀ c ∈ qs, c ≠ '#') :
    urlparse (scheme ++ ':' :: '/' :: '/' :: (host ++ path) ++ '?' :: qs) =
      ⟨scheme, host, path, qs, []⟩ := by
  have hmid : ∀ c ∈ scheme ++ ':' :: '/' :: '/' :: (host ++ path), c ≠ '#' ∧ c ≠ '?' := by
    intro c hc
    rcases List.mem_append.mp hc with h1 | h1
    · exact ⟨(hsC c h1).2.1, (hsC c h1).2.2⟩
    · rcases List.mem_cons.mp h1 with rfl | h1
      · exact ⟨by decide, by decide⟩
      · rcases List.mem_cons.mp h1 with rfl | h1
        · exact ⟨by decide, by decide⟩
        · rcases List.mem_cons.mp h1 with rfl | h1
          · exact ⟨by decide, by decide⟩
          · rcases List.mem_append.mp h1 with h2 | h2
            · exact ⟨(hhC c h2).2.1, (hhC c h2).2.2⟩
            · rcases hpC with hp | hp
              · rw [hp] at h2; simp at h2
              · exact hp.2 c h2
  have hhash : ∀ c ∈ (scheme ++ ':' :: '/' :: '/' :: (host ++ path)) ++ '?' :: qs,
      c ≠ '#' := by
    intro c hc
    rcases List.mem_append.mp hc with h1 | h1
    · exact (hmid c h1).1
    · rcases List.mem_cons.mp h1 with rfl | h1
      · decide
      · exact hqC c h1
  have h1 : splitFirst '#' ((scheme ++ ':' :: '/' :: '/' :: (host ++ path)) ++ '?' :: qs) =
      ((scheme ++ ':' :: '/' :: '/' :: (host ++ path)) ++ '?' :: qs, none) :=
    splitFirst_not_mem '#' _ hhash
  have h2 : splitFirst '?' ((scheme ++ ':' :: '/' :: '/' :: (host ++ path)) ++ '?' :: qs) =
      (scheme ++ ':' :: '/' :: '/' :: (host ++ path), some qs) :=
    splitFirst_append '?' _ _ (fun x hx => (hmid x hx).2)
  have h3 : splitSchemeAux (scheme ++ ':' :: '/' :: '/' :: (host ++ path)) =
      some (scheme, host ++ path) :=
    splitSchemeAux_clean scheme (host ++ path) (fun c hc => (hsC c hc).1)
  simp only [urlparse]
  rw [show scheme ++ ':' :: '/' :: '/' :: (host ++ path) ++ '?' :: qs =
    (scheme ++ ':' :: '/' :: '/' :: (host ++ path)) ++ '?' :: qs by simp, h1]
  simp only [Option.getD]
  rw [h2]
  rcases hpC with hp | hp
  · subst hp
    have h4 : splitFirst '/' host = (host, none) :=
      splitFirst_not_mem '/' host (fun x hx => (hhC x hx).1)
    have h3' : splitSchemeAux (scheme ++ ':' :: '/' :: '/' :: host) =
        some (scheme, host) := by simpa using h3
    simp [h3', h4]
  · obtain ⟨⟨p', hp'⟩, _⟩ := hp
    subst hp'
    have h4 : splitFirst '/' (host ++ '/' :: p') = (host, some p') :=
      splitFirst_append '/' host p' (fun x hx => (hhC x hx).1)
    simp [h3, h4]

theorem urlparse_clean_noq (scheme host path : List Char)
    (hsC : ∀ c ∈ scheme, c ≠ ':' ∧ c ≠ '#' ∧ c ≠ '?')
    (hhC : ∀ c ∈ host, c ≠ '/' ∧ c ≠ '#' ∧ c ≠ '?')
    (hpC : path = [] ∨ ((∃ p', path = '/' :: p') ∧ ∀ c ∈ path, c ≠ '#' ∧ c ≠ '?')) :
    urlparse (scheme ++ ':' :: '/' :: '/' :: (host ++ path)) =
      ⟨scheme, host, path, [], []⟩ := by
  have hmid : ∀ c ∈ scheme ++ ':' :: '/' :: '/' :: (host ++ path), c ≠ '#' ∧ c ≠ '?' := by
    intro c hc
    rcases List.mem_append.mp hc with h1 | h1
    · exact ⟨(hsC c h1).2.1, (hsC c h1).2.2⟩
    · rcases List.mem_cons.mp h1 with rfl | h1
      · exact ⟨by decide, by decide⟩
      · rcases List.mem_cons.mp h1 with rfl | h1
        · exact ⟨by decide, by decide⟩
        · rcases List.mem_cons.mp h1 with rfl | h1
          · exact ⟨by decide, by decide⟩
          · rcases List.mem_append.mp h1 with h2 | h2
            · exact ⟨(hhC c h2).2.1, (hhC c h2).2.2⟩
            · rcases hpC with hp | hp
              · rw [hp] at h2; simp at h2
              · exact hp.2 c h2
  have h1 : splitFirst '#' (scheme ++ ':' :: '/' :: '/' :: (host ++ path)) =
      (scheme ++ ':' :: '/' :: '/' :: (host ++ path), none) :=
    splitFirst_not_mem '#' _ (fun x hx => (hmid x hx).1)
  have h2 : splitFirst '?' (scheme ++ ':' :: '/' :: '/' :: (host ++ path)) =
      (scheme ++ ':' :: '/' :: '/' :: (host ++ path), none) :=
    splitFirst_not_mem '?' _ (fun x hx => (hmid x hx).2)
  have h3 : splitSchemeAux (scheme ++ ':' :: '/' :: '/' :: (host ++ path)) =
      some (scheme, host ++ path) :=
    splitSchemeAux_clean scheme (host ++ path) (fun c hc => (hsC c hc).1)
  simp only [urlparse]
  rw [h1]
  simp only [Option.getD]
  rw [h2]
  rcases hpC with hp | hp
  · subst hp
    have h4 : splitFirst '/' host = (host, none) :=
      splitFirst_not_mem '/' host (fun x hx => (hhC x hx).1)
    have h3' : splitSchemeAux (scheme ++ ':' :: '/' :: '/' :: host) =
        some (scheme, host) := by simpa using h3
    simp [h3', h4]
  · obtain ⟨⟨p', hp'⟩, _⟩ := hp
    subst hp'
    have h4 : splitFirst '/' (host ++ '/' :: p') = (host, some p') :=
      splitFirst_append '/' host p' (fun x hx => (hhC x hx).1)
    simp [h3, h4]

theorem urlunparse_clean (scheme host path q : List Char)
    (hs : scheme ≠ []) (hh : host ≠ [])
    (hp : path = [] ∨ ∃ p', path = '/' :: p') (hq : q ≠ []) :
    urlunparse ⟨scheme, host, path, q, []⟩ =
      scheme ++ ':' :: '/' :: '/' :: host ++ path ++ '?' :: q := by
  have h1 := list_isEmpty_false hh
  have h2 := list_isEmpty_false hs
  have h3 := list_isEmpty_false hq
  rcases hp with hp | ⟨p', hp⟩ <;> subst hp <;> simp [urlunparse, h1, h2, h3]

theorem natDigitsAux_safe : ∀ (fuel n : Nat), ∀ c ∈ natDigitsAux fuel n,
    isUrlSafe c = true := by
  intro fuel
  induction fuel with
  | zero => intro n c hc; simp [natDigitsAux] at hc
  | succ f ih =>
    intro n c hc
    unfold natDigitsAux at hc
    by_cases h : n < 10
    · rw [if_pos h] at hc
      rcases List.mem_singleton.mp hc with rfl
      interval_cases n <;> decide
    · rw [if_neg h] at hc
      rcases List.mem_append.mp hc with h1 | h1
      · exact ih _ c h1
      · rcases List.mem_singleton.mp h1 with rfl
        have hm : n % 10 < 10 := Nat.mod_lt _ (by norm_num)
        set m := n % 10 with hmm
        clear hmm hc h
        interval_cases m <;> decide

theorem natDigits_safe (n : Nat) : ∀ c ∈ natDigits n, isUrlSafe c = true :=
  natDigitsAux_safe (n + 1) n

theorem natDigits_ne_nil (n : Nat) : natDigits n ≠ [] := by
  unfold natDigits natDigitsAux
  by_cases h : n < 10
  · rw [if_pos h]; simp
  · rw [if_neg h]; simp

theorem qSet_fresh (q0 : List (List Char × List (List Char))) (param : List Char)
    (v : List (List Char)) (hfresh : ∀ p ∈ q0, p.1 ≠ param) :
    qSet q0 param v = q0 ++ [(param, v)] := by
  unfold qSet
  rw [if_neg]
  simp only [List.any_eq_true, not_exists, not_and]
  intro p hp
  simp [hfresh p hp]

theorem qSet_last (q0 : List (List Char × List (List Char))) (param : List Char)
    (w v : List (List Char)) (hfresh : ∀ p ∈ q0, p.1 ≠ param) :
    qSet (q0 ++ [(param, w)]) param v = q0 ++ [(param, v)] := by
  unfold qSet
  rw [if_pos]
  · rw [List.map_append]
    congr 1
    · have : q0.map (fun p => if p.1 = param then (param, v) else p) = q0.map id :=
        List.map_congr_left (fun p hp => by rw [if_neg (hfresh p hp)]; rfl)
      rw [this, List.map_id]
    · simp
  · rw [List.any_append]
    simp

/-- The URL yielded for one value of the pagination dict. -/
def pageUrlAt (parsed : UrlParts) (q : List (List Char × List (List Char))) : String :=
  String.mk (urlunparse
    { parsed with query := urlencode (q.map (fun kv => (kv.1, kv.2.headD []))) })

theorem paginateGo_spec (parsed : UrlParts) (param : List Char)
    (q0 : List (List Char × List (List Char))) (hfresh : ∀ p ∈ q0, p.1 ≠ param) :
    ∀ (n p : Nat) (q : List (List Char × List (List Char))),
      (q = q0 ∨ ∃ w, q = q0 ++ [(param, w)]) →
      paginateGo parsed param q p n =
        (List.range n).map
          (fun i => pageUrlAt parsed (q0 ++ [(param, [natDigits (p + i)])])) := by
  intro n
  induction n with
  | zero => intro p q _; simp [paginateGo]
  | succ m ih =>
    intro p q hq
    have hset : qSet q param [natDigits p] = q0 ++ [(param, [natDigits p])] := by
      rcases hq with rfl | ⟨w, rfl⟩
      · exact qSet_fresh _ param _ hfresh
      · exact qSet_last _ param _ _ hfresh
    have hsucc : paginateGo parsed param q p (m + 1) =
        pageUrlAt parsed (qSet q param [natDigits p]) ::
          paginateGo parsed param (qSet q param [natDigits p]) (p + 1) m := rfl
    rw [hsucc, hset, ih (p + 1) _ (Or.inr ⟨_, rfl⟩)]
    rw [List.range_succ_eq_map, List.map_cons, List.map_map]
    congr 1
    apply List.map_congr_left
    intro i _
    simp only [Function.comp]
    have h' : p + 1 + i = p + (i + 1) := by omega
    rw [h']

theorem buildQuery_ne_nil (kv : List Char × List Char)
    (rest : List (List Char × List Char)) : buildQuery (kv :: rest) ≠ [] := by
  by_cases hr : rest = []
  · subst hr
    rw [buildQuery_single]
    simp
  · rw [buildQuery_cons_ne kv rest hr]
    simp

/--
C4 counterexample: the claim says every non-pagination query parameter of the
start URL is preserved byte-for-byte, but `parse_qs`/`urlencode` collapse a
repeated parameter to its first value: for the start URL
`https://site.fr/c?a=1&a=2` the only yielded URL is
`https://site.fr/c?a=1&page=1` — the `a=2` occurrence is dropped.
-/
theorem C4_counterexample :
    paginate "https://site.fr/c?a=1&a=2" "page" 1 1 = ["https://site.fr/c?a=1&page=1"] ∧
    (["https://site.fr/c?a=1&page=1"] : List String) ≠
      ["https://site.fr/c?a=1&a=2&page=1"] := by
  constructor
  · rfl
  · decide

/--
C4 (amended): for every start URL `scheme://host/path?k1=v1&...&km=vm` whose
scheme is alphabetic, whose host and path use ordinary URL characters, and
whose query is a sequence of `k=v` pairs with pairwise-distinct keys, all of
nonempty keys and values over unreserved characters, and for every pagination
parameter over unreserved characters that does not already occur among the
keys, `paginate` yields exactly `n` URLs in which the pagination parameter is
appended taking the values `start .. start+n-1` in order, and the scheme,
host, path and all non-pagination query parameters are preserved
byte-for-byte.  (In general — the original claim — preservation fails:
duplicate keys are collapsed to their first value, empty-valued parameters
are dropped, and percent-encoding is normalized.)
-/
theorem C4_paginate_amended (scheme host path param : List Char)
    (pairs : List (List Char × List Char)) (start n : Nat)
    (hs : scheme ≠ []) (hsC : ∀ c ∈ scheme, Char.isAlpha c = true)
    (hh : host ≠ []) (hhC : ∀ c ∈ host, isHostChar c = true)
    (hpC : path = [] ∨ ((∃ p', path = '/' :: p') ∧ ∀ c ∈ path, isPathChar c = true))
    (hkv : cleanPairs pairs)
    (hnd : (pairs.map Prod.fst).Nodup)
    (_hpm : param ≠ []) (hpmC : ∀ c ∈ param, isUrlSafe c = true)
    (hpmF : param ∉ pairs.map Prod.fst) :
    paginate (String.mk (scheme ++ ':' :: '/' :: '/' :: (host ++ path) ++ queryPart pairs))
        (String.mk param) start n =
      (List.range n).map (fun i =>
        String.mk (scheme ++ ':' :: '/' :: '/' :: host ++ path ++ '?' ::
          buildQuery (pairs ++ [(param, natDigits (start + i))]))) := by
  have hsC' : ∀ c ∈ scheme, c ≠ ':' ∧ c ≠ '#' ∧ c ≠ '?' := fun c hc =>
    ⟨char_ne_of_class (hsC c hc) (by decide), char_ne_of_class (hsC c hc) (by decide),
     char_ne_of_class (hsC c hc) (by decide)⟩
  have hhC' : ∀ c ∈ host, c ≠ '/' ∧ c ≠ '#' ∧ c ≠ '?' := fun c hc =>
    ⟨char_ne_of_class (hhC c hc) (by decide), char_ne_of_class (hhC c hc) (by decide),
     char_ne_of_class (hhC c hc) (by decide)⟩
  have hpC' : path = [] ∨ ((∃ p', path = '/' :: p') ∧ ∀ c ∈ path, c ≠ '#' ∧ c ≠ '?') := by
    rcases hpC with h | ⟨he, hc⟩
    · exact Or.inl h
    · exact Or.inr ⟨he, fun c hcm =>
        ⟨char_ne_of_class (hc c hcm) (by decide), char_ne_of_class (hc c hcm) (by decide)⟩⟩
  have hp'' : path = [] ∨ ∃ p', path = '/' :: p' := by
    rcases hpC with h | ⟨he, _⟩
    · exact Or.inl h
    · exact Or.inr he
  have hup : urlparse (scheme ++ ':' :: '/' :: '/' :: (host ++ path) ++ queryPart pairs) =
      ⟨scheme, host, path, buildQuery pairs, []⟩ := by
    by_cases hpe : pairs = []
    · subst hpe
      have : queryPart [] = [] := rfl
      rw [this]
      have : buildQuery [] = [] := rfl
      rw [this]
      have happ : scheme ++ ':' :: '/' :: '/' :: (host ++ path) ++ ([] : List Char) =
          scheme ++ ':' :: '/' :: '/' :: (host ++ path) := by simp
      rw [happ]
      exact urlparse_clean_noq scheme host path hsC' hhC' hpC'
    · have hqp : queryPart pairs = '?' :: buildQuery pairs := by
        have hpe' : pairs.isEmpty = false := by
          cases pairs
          · exact absurd rfl hpe
          · rfl
        unfold queryPart
        rw [hpe']
        rfl
      rw [hqp]
      apply urlparse_clean_q scheme host path (buildQuery pairs) hsC' hhC' hpC'
      intro c hc
      rcases buildQuery_chars pairs
        (fun kv hkvm => ⟨(hkv kv hkvm).2.2.1, (hkv kv hkvm).2.2.2⟩) c hc with h | h | h
      · exact char_ne_of_class h (by decide)
      · subst h; decide
      · subst h; decide
  have hq0 : parse_qs (buildQuery pairs) = pairs.map (fun kv => (kv.1, [kv.2])) :=
    parse_qs_clean pairs hkv hnd
  have hfresh : ∀ p ∈ pairs.map (fun kv => (kv.1, [kv.2])), p.1 ≠ param := by
    intro p hp heq
    apply hpmF
    rw [← heq]
    obtain ⟨kv, hkvm, rfl⟩ := List.mem_map.mp hp
    exact List.mem_map_of_mem Prod.fst hkvm
  unfold paginate
  rw [show (String.mk (scheme ++ ':' :: '/' :: '/' :: (host ++ path) ++
    queryPart pairs)).data = scheme ++ ':' :: '/' :: '/' :: (host ++ path) ++
    queryPart pairs from rfl, hup]
  simp only []
  rw [hq0]
  rw [paginateGo_spec ⟨scheme, host, path, buildQuery pairs, []⟩ param
    (pairs.map (fun kv => (kv.1, [kv.2]))) hfresh n start _ (Or.inl rfl)]
  apply List.map_congr_left
  intro i _
  unfold pageUrlAt
  have hmap : ((pairs.map (fun kv => (kv.1, [kv.2])) ++
      [(param, [natDigits (start + i)])]).map (fun kv => (kv.1, kv.2.headD []))) =
      pairs ++ [(param, natDigits (start + i))] := by
    rw [List.map_append, List.map_map]
    congr 1
    have : ((fun kv => (kv.1, kv.2.headD [])) ∘ (fun kv => (kv.1, [kv.2]))) =
        (fun kv : List Char × List Char => (kv.1, kv.2)) := by
      funext kv
      rfl
    rw [this]
    have h2 : (fun kv : List Char × List Char => (kv.1, kv.2)) = id := by
      funext kv
      rfl
    rw [h2, List.map_id]
  rw [hmap]
  have hsafe : ∀ kv ∈ pairs ++ [(param, natDigits (start + i))],
      (∀ c ∈ kv.1, isUrlSafe c = true) ∧ (∀ c ∈ kv.2, isUrlSafe c = true) := by
    intro kv hkvm
    rcases List.mem_append.mp hkvm with h | h
    · exact ⟨(hkv kv h).2.2.1, (hkv kv h).2.2.2⟩
    · rcases List.mem_singleton.mp h with rfl
      exact ⟨hpmC, natDigits_safe _⟩
  rw [urlencode_safe _ hsafe]
  have hqne : buildQuery (pairs ++ [(param, natDigits (start + i))]) ≠ [] := by
    cases pairs with
    | nil => exact buildQuery_ne_nil _ _
    | cons kv t =>
      rw [List.cons_append]
      exact buildQuery_ne_nil _ _
  rw [urlunparse_clean scheme host path _ hs hh hp'' hqne]

/-- Witness for the amended C4 at the concrete start URL
`https://site.fr/c?a=1` with parameter `page`, start 1, two pages. -/
theorem C4_paginate_amended_witness :
    paginate (String.mk (['h', 't', 't', 'p', 's'] ++ ':' :: '/' :: '/' ::
        ((['s', 'i', 't', 'e', '.', 'f', 'r'] : List Char) ++ ['/', 'c']) ++
        queryPart [(['a'], ['1'])]))
      (String.mk ['p', 'a', 'g', 'e']) 1 2 =
    (List.range 2).map (fun i =>
      String.mk (['h', 't', 't', 'p', 's'] ++ ':' :: '/' :: '/' ::
        ['s', 'i', 't', 'e', '.', 'f', 'r'] ++ ['/', 'c'] ++ '?' ::
        buildQuery ([(['a'], ['1'])] ++ [(['p', 'a', 'g', 'e'], natDigits (1 + i))]))) :=
  C4_paginate_amended ['h', 't', 't', 'p', 's'] ['s', 'i', 't', 'e', '.', 'f', 'r']
    ['/', 'c'] ['p', 'a', 'g', 'e'] [(['a'], ['1'])] 1 2
    (by decide) (by decide) (by decide) (by decide)
    (Or.inr ⟨⟨['c'], rfl⟩, by decide⟩)
    (by
      intro kv hkvm
      rcases List.mem_singleton.mp hkvm with rfl
      exact ⟨by decide, by decide, by decide, by decide⟩)
    (by decide) (by decide) (by decide) (by decide)

/-! ## DOM and CSS-selector model (the BeautifulSoup subset the scraper uses)

A parsed document is a tree of element and text nodes.  A node handed to
`parse_card` is paired with its chain of enclosing elements (nearest first),
which is what `find_parent` consults.  `select`/`select_one` support the
selector subset appearing in the scraper's configuration: comma-separated
groups of compounds `tag.class[attr]`, combined with descendant (space) and
child (`>`) combinators; matches are strict descendants of the queried
element, in document (pre-)order, as in soupsieve. -/

mutual

inductive Node where
  | elem (tagName : String) (attrs : List (String × String)) (children : NodeForest)
  | textNode (s : String)

inductive NodeForest where
  | nil
  | cons (head : Node) (tail : NodeForest)

end

/-- Build a forest of children from a list (literal convenience). -/
def forestOf : List Node → NodeForest
  | [] => .nil
  | n :: rest => .cons n (forestOf rest)

mutual

def nodeDecEq : (a b : Node) → Decidable (a = b)
  | .elem n1 a1 c1, .elem n2 a2 c2 =>
    if h1 : n1 = n2 then
      if h2 : a1 = a2 then
        match nodeForestDecEq c1 c2 with
        | isTrue h3 => isTrue (by rw [h1, h2, h3])
        | isFalse h3 => isFalse (fun he => h3 (by cases he; rfl))
      else isFalse (fun he => h2 (by cases he; rfl))
    else isFalse (fun he => h1 (by cases he; rfl))
  | .elem _ _ _, .textNode _ => isFalse (fun he => Node.noConfusion he)
  | .textNode _, .elem _ _ _ => isFalse (fun he => Node.noConfusion he)
  | .textNode s1, .textNode s2 =>
    if h : s1 = s2 then isTrue (by rw [h]) else isFalse (fun he => h (by cases he; rfl))

def nodeForestDecEq : (a b : NodeForest) → Decidable (a = b)
  | .nil, .nil => isTrue rfl
  | .nil, .cons _ _ => isFalse (fun he => NodeForest.noConfusion he)
  | .cons _ _, .nil => isFalse (fun he => NodeForest.noConfusion he)
  | .cons x xs, .cons y ys =>
    match nodeDecEq x y with
    | isFalse h => isFalse (fun he => h (by cases he; rfl))
    | isTrue h1 =>
      match nodeForestDecEq xs ys with
      | isTrue h2 => isTrue (by rw [h1, h2])
      | isFalse h2 => isFalse (fun he => h2 (by cases he; rfl))

end

instance : DecidableEq Node := nodeDecEq

/-- A node together with its enclosing elements, nearest first. -/
structure Located where
  ancestors : List Node
  node : Node

instance : DecidableEq Located := fun a b =>
  if h1 : a.ancestors = b.ancestors then
    if h2 : a.node = b.node then
      isTrue (by cases a; cases b; cases h1; cases h2; rfl)
    else isFalse (fun he => h2 (by rw [he]))
  else isFalse (fun he => h1 (by rw [he]))

/-- `tag.name` (`None` for a bare string, as in BeautifulSoup). -/
def tagNameOf : Node → Option String
  | .elem nm _ _ => some nm
  | .textNode _ => none

/-- `tag.get(key)`. -/
def attrGet (n : Node) (key : String) : Option String :=
  match n with
  | .elem _ attrs _ => (attrs.find? (fun p => p.1 = key)).map (fun p => p.2)
  | .textNode _ => none

/-- The whitespace-split `class` attribute. -/
def classesOf (n : Node) : List String :=
  match attrGet n "class" with
  | some s => (splitAll ' ' s.data).filterMap
      (fun w => if w.isEmpty then none else some (String.mk w))
  | none => []

mutual

/-- The stripped non-empty strings below one node, in document order
(BeautifulSoup `stripped_strings`). -/
def strippedTexts : Node → List String
  | .textNode s => if (pyStrip s).isEmpty then [] else [pyStrip s]
  | .elem _ _ ch => strippedTextsF ch

/-- `stripped_strings` of a forest. -/
def strippedTextsF : NodeForest → List String
  | .nil => []
  | .cons n rest => strippedTexts n ++ strippedTextsF rest

end

/-- `tag.get_text(strip=True)`: the stripped strings joined by `""`. -/
def getTextStrip (n : Node) : String :=
  String.mk ((strippedTexts n).map String.data).flatten

/-- A compound selector `tag.class1.class2[attr]`. -/
structure Compound where
  tag : Option String
  classes : List String
  attrsPresent : List String
deriving DecidableEq

/-- A selector group: compounds joined by descendant or child combinators,
rightmost compound outermost. -/
inductive SelChain where
  | one (c : Compound)
  | desc (rest : SelChain) (c : Compound)
  | child (rest : SelChain) (c : Compound)
deriving DecidableEq

def isSelNameChar (c : Char) : Bool := c.isAlphanum || c == '-' || c == '_'

/-- Parse the `.class` / `[attr]` suffixes of a compound (fuel-bounded). -/
def parseSimplesF : Nat → List Char → List String × List String
  | 0, _ => ([], [])
  | _ + 1, [] => ([], [])
  | fuel + 1, '.' :: rest =>
    let s := spanP isSelNameChar rest
    let r := parseSimplesF fuel s.2
    (String.mk s.1 :: r.1, r.2)
  | fuel + 1, '[' :: rest =>
    let s := spanP (fun c => c != ']') rest
    let r := parseSimplesF fuel (s.2.drop 1)
    (r.1, String.mk s.1 :: r.2)
  | fuel + 1, _ :: rest => parseSimplesF fuel rest

def parseCompound (tok : List Char) : Compound :=
  match tok with
  | '*' :: rest =>
    let r := parseSimplesF (rest.length + 1) rest
    ⟨none, r.1, r.2⟩
  | _ =>
    let t := spanP isSelNameChar tok
    let r := parseSimplesF (t.2.length + 1) t.2
    ⟨if t.1.isEmpty then none else some (String.mk t.1), r.1, r.2⟩

/-- Fold whitespace-split tokens into a chain; a pending `>` token makes the
next compound a child step. -/
def buildChain (acc : SelChain) (childNext : Bool) : List (List Char) → SelChain
  | [] => acc
  | t :: rest =>
    if t = ['>'] then buildChain acc true rest
    else
      buildChain ((if childNext then SelChain.child else SelChain.desc) acc (parseCompound t))
        false rest

def parseSelectorGroup (cs : List Char) : Option SelChain :=
  match (splitAll ' ' cs).filter (fun t => ¬ t.isEmpty) with
  | [] => none
  | t :: rest => some (buildChain (.one (parseCompound t)) false rest)

/-- Parse a configured selector string into its comma-separated groups. -/
def parseSelector (s : String) : List SelChain :=
  (splitAll ',' s.data).filterMap (fun g => parseSelectorGroup (pyStripL g))

def matchCompound (cp : Compound) (n : Node) : Bool :=
  match n with
  | .textNode _ => false
  | .elem nm _ _ =>
    (match cp.tag with
     | none => true
     | some t => t = nm) &&
    cp.classes.all (fun cl => (classesOf n).contains cl) &&
    cp.attrsPresent.all (fun a => (attrGet n a).isSome)

/-- Each ancestor paired with its own remaining ancestor chain. -/
def ancTails : List Node → List (Node × List Node)
  | [] => []
  | p :: ps => (p, ps) :: ancTails ps

/-- Match a chain against a node with its ancestor chain: a child step looks
at the parent, a descendant step at any ancestor. -/
def matchChain : SelChain → List Node → Node → Bool
  | .one cp, _, n => matchCompound cp n
  | .child rest cp, anc, n =>
    matchCompound cp n &&
      (match anc with
       | p :: ps => matchChain rest ps p
       | [] => false)
  | .desc rest cp, anc, n =>
    matchCompound cp n && (ancTails anc).any (fun pa => matchChain rest pa.2 pa.1)

mutual

/-- The located entries a node contributes to a pre-order traversal, given
its ancestors: itself (if an element) followed by its element descendants. -/
def nodeDesc : Node → List Node → List Located
  | .textNode _, _ => []
  | .elem nm attrs ch, anc =>
    ⟨anc, Node.elem nm attrs ch⟩ :: descendantsF ch (Node.elem nm attrs ch :: anc)

/-- All element descendants of a forest in pre-order, with ancestor chains. -/
def descendantsF : NodeForest → List Node → List Located
  | .nil, _ => []
  | .cons n rest, anc => nodeDesc n anc ++ descendantsF rest anc

end

/-- `located.select(sel)`: matching strict descendants in document order. -/
def selectAllFrom (chains : List SelChain) (container : Located) : List Located :=
  let kids :=
    match container.node with
    | .elem _ _ ch => ch
    | .textNode _ => NodeForest.nil
  (descendantsF kids (container.node :: container.ancestors)).filter
    (fun l => chains.any (fun ch => matchChain ch l.ancestors l.node))

/-- `tag.select_one(sel)`. -/
def select_one (sel : String) (container : Located) : Option Located :=
  (selectAllFrom (parseSelector sel) container).head?

/-- `soup.select(sel)` on a whole document. -/
def select (sel : String) (root : Node) : List Located :=
  selectAllFrom (parseSelector sel) ⟨[], root⟩

def findParentAux (names : List String) : List Node → Option Located
  | [] => none
  | a :: as =>
    match tagNameOf a with
    | some nm => if names.contains nm then some ⟨as, a⟩ else findParentAux names as
    | none => findParentAux names as

/-- `tag.find_parent([...])`: the nearest enclosing element with one of the
given names. -/
def find_parent (names : List String) (card : Located) : Option Located :=
  findParentAux names card.ancestors

/-! ## `parse_card` (scraper.py, `SiteScraper.parse_card`)

The configured selector dictionary `self.S`; absent keys are `None` and a
present empty string is falsy, exactly as `self.S.get(...)` behaves in the
conditions below. -/

structure Selectors where
  product_card : String := ""
  name : Option String := none
  price : Option String := none
  brand : Option String := none
  url : Option String := none
  image : Option String := none
  availability : Option String := none
deriving DecidableEq

/-- `text_or_none(node)`: `get_text(strip=True)` of a present node. -/
def text_or_none (node : Option Located) : Option String :=
  node.map (fun l => getTextStrip l.node)

/-- `urllib.parse.urljoin(base, url)` restricted to the shapes the scraper
produces (absolute `http(s)` base; absolute, `//`, `/` or plain relative
reference; no dot-segment normalization). -/
def urljoin (base url : String) : String :=
  match splitSchemeAux url.data with
  | some _ => url
  | none =>
    let b := urlparse base.data
    match url.data with
    | '/' :: '/' :: rest => String.mk (b.scheme ++ ':' :: '/' :: '/' :: rest)
    | '/' :: rest => String.mk (b.scheme ++ ':' :: '/' :: '/' :: b.netloc ++ '/' :: rest)
    | u =>
      let dir := (b.path.reverse.dropWhile (fun c => c ≠ '/')).reverse
      let dir2 := if dir.isEmpty then ['/'] else dir
      String.mk (b.scheme ++ ':' :: '/' :: '/' :: b.netloc ++ dir2 ++ u)

/-- The parsing container: for an anchor card, `card.find_parent(["li",
"article", "div"]) or card`; otherwise the card itself. -/
def containerOf (card : Located) : Located :=
  if tagNameOf card.node = some "a" then (find_parent ["li", "article", "div"] card).getD card
  else card

/-- The raw `href`: the anchor's own for an anchor card, else the `href` of
the node found by the configured `url` selector. -/
def hrefOf (S : Selectors) (card : Located) : Option String :=
  if tagNameOf card.node = some "a" then attrGet card.node "href"
  else if optTruthy S.url then
    match select_one (S.url.getD "") (containerOf card) with
    | some urlNode => attrGet urlNode.node "href"
    | none => none
  else none

/-- `full_url = urljoin(base_url, href) if href else base_url`. -/
def fullUrlOf (S : Selectors) (base_url : String) (card : Located) : String :=
  if optTruthy (hrefOf S card) then urljoin base_url ((hrefOf S card).getD "")
  else base_url

/-- `name_node = container.select_one(self.S.get("name")) if ... else None`. -/
def nameNodeOf (S : Selectors) (card : Located) : Option Located :=
  if optTruthy S.name then select_one (S.name.getD "") (containerOf card) else none

/-- `name = (text_or_none(name_node) if name_node else None) or
(text_or_none(card) if card.name == "a" else None)`. -/
def nameValOf (S : Selectors) (card : Located) : Option String :=
  pyOr (text_or_none (nameNodeOf S card))
    (if tagNameOf card.node = some "a" then text_or_none (some card) else none)

/-- The `brand` block: selected text, `""` demoted to `None`. -/
def brandOf (S : Selectors) (card : Located) : Option String :=
  if optTruthy S.brand then
    match select_one (S.brand.getD "") (containerOf card) with
    | some b => pyOr (text_or_none (some b)) none
    | none => none
  else none

/-- The `price_text` after both steps: the `price` selector's text if truthy,
otherwise the first stripped string of the container containing `"€"`. -/
def priceTextOf (S : Selectors) (card : Located) : Option String :=
  let fromSel : Option String :=
    if optTruthy S.price then
      match select_one (S.price.getD "") (containerOf card) with
      | some p => text_or_none (some p)
      | none => none
    else none
  if optTruthy fromSel then fromSel
  else
    match (strippedTexts (containerOf card).node).find? (fun t => t.data.contains '€') with
    | some t => some t
    | none => fromSel

/-- The `img_url` block: `src or data-src`, joined against the base if truthy. -/
def imgUrlOf (S : Selectors) (base_url : String) (card : Located) : Option String :=
  if optTruthy S.image then
    match select_one (S.image.getD "") (containerOf card) with
    | some img =>
      let src := pyOr (attrGet img.node "src") (attrGet img.node "data-src")
      if optTruthy src then some (urljoin base_url (src.getD "")) else none
    | none => none
  else none

/-- The `availability` block. -/
def availabilityOf (S : Selectors) (card : Located) : Option String :=
  if optTruthy S.availability then
    match select_one (S.availability.getD "") (containerOf card) with
    | some a => pyOr (text_or_none (some a)) none
    | none => none
  else none

/-- `SiteScraper.parse_card(base_url, card, category)`; `site_key` is the
scraper's site key and `now` the `datetime.now(timezone.utc).isoformat()`
timestamp taken at construction of the returned item. -/
def parse_card (S : Selectors) (site_key : String) (base_url : String) (card : Located)
    (category : String) (now : String) : Option MaterialItem :=
  if optTruthy (nameValOf S card) then
    let name := (nameValOf S card).getD ""
    let full_url := fullUrlOf S base_url card
    let pr := parse_price_unit (priceTextOf S card)
    some
      { id := stable_id [site_key, category, name, full_url]
        site := site_key
        category := category
        name := name
        brand := brandOf S card
        price := ⟨pr.1, pr.2.1, pr.2.2.2⟩
        unit := pr.2.2.1
        url := full_url
        image_url := imgUrlOf S base_url card
        availability := availabilityOf S card
        scraped_at := now }
  else none

/-! ## C5, C6, C10: the `parse_card` contract -/

/-- The spec's notion of a resolvable name: the configured `name` selector
finds a node with non-empty stripped text, or — the card being itself an
anchor — the anchor's own stripped text is non-empty. -/
def nameResolvable (S : Selectors) (card : Located) : Prop :=
  (∃ l, nameNodeOf S card = some l ∧ getTextStrip l.node ≠ "") ∨
  (tagNameOf card.node = some "a" ∧ getTextStrip card.node ≠ "")

lemma optTruthy_pyOr (a b : Option String) :
    optTruthy (pyOr a b) = (optTruthy a || optTruthy b) := by
  cases ha : optTruthy a <;> simp [pyOr, ha]

lemma optTruthy_text_or_none (o : Option Located) :
    optTruthy (text_or_none o) = true ↔ ∃ l, o = some l ∧ getTextStrip l.node ≠ "" := by
  cases o with
  | none => simp [text_or_none, optTruthy]
  | some l =>
    simp only [text_or_none, Option.map_some', optTruthy, Bool.not_eq_true',
      Option.some.injEq]
    constructor
    · intro h
      refine ⟨l, rfl, fun he => ?_⟩
      rw [he] at h
      exact absurd h (by decide)
    · rintro ⟨m, hm, hne⟩
      cases hm
      cases hemp : (getTextStrip l.node).isEmpty
      · rfl
      · exact absurd ((String.isEmpty_iff _).mp hemp) hne

lemma optTruthy_nameVal (S : Selectors) (card : Located) :
    optTruthy (nameValOf S card) = true ↔ nameResolvable S card := by
  unfold nameValOf nameResolvable
  rw [optTruthy_pyOr, Bool.or_eq_true, optTruthy_text_or_none]
  apply or_congr Iff.rfl
  by_cases h : tagNameOf card.node = some "a"
  · rw [if_pos h]
    rw [optTruthy_text_or_none]
    constructor
    · rintro ⟨l, hl, hne⟩
      cases hl
      exact ⟨h, hne⟩
    · rintro ⟨-, hne⟩
      exact ⟨card, rfl, hne⟩
  · rw [if_neg h]
    simp [optTruthy, h]

/-- C5: `parse_card` returns `None` exactly when no name resolves — first
from the configured `name` selector's stripped text, and failing that from
the card's own text when the card is an anchor.  `None` is an ordinary
return value, and whenever a name resolves an item is constructed. -/
theorem C5_parse_card_none_iff_no_name (S : Selectors) (site base : String) (card : Located)
    (cat now : String) :
    parse_card S site base card cat now = none ↔ ¬ nameResolvable S card := by
  rw [← optTruthy_nameVal]
  cases hv : optTruthy (nameValOf S card) <;> simp [parse_card, hv]

/-- Evaluating C5 on an anchor card with text: an item is constructed. -/
theorem C5_parse_card_none_iff_no_name_witness :
    parse_card { product_card := "" } "s" "u" ⟨[], Node.elem "a" [] (forestOf [Node.textNode "N"])⟩
      "c" "t" ≠ none :=
  fun hnone =>
    ((C5_parse_card_none_iff_no_name { product_card := "" } "s" "u"
        ⟨[], Node.elem "a" [] (forestOf [Node.textNode "N"])⟩ "c" "t").mp hnone)
      (Or.inr ⟨rfl, by decide⟩)

/-- Forget the `scraped_at` field of a parsing outcome. -/
def eraseTime (o : Option MaterialItem) : Option MaterialItem :=
  o.map (fun it => { it with scraped_at := "" })

/-- C6: parsing the same card twice with the same base URL, category and
selector configuration yields items identical in every field except
`scraped_at`; and any returned item's `id` is `stable_id` of its own
`(site, category, name, url)`, hence deterministic in those four fields. -/
theorem C6_parse_card_deterministic (S : Selectors) (site base : String) (card : Located)
    (cat t1 t2 : String) :
    eraseTime (parse_card S site base card cat t1) =
      eraseTime (parse_card S site base card cat t2) ∧
    ∀ it, parse_card S site base card cat t1 = some it →
      it.id = stable_id [it.site, it.category, it.name, it.url] := by
  constructor
  · cases hv : optTruthy (nameValOf S card) <;> simp [parse_card, hv, eraseTime]
  · intro it hit
    cases hv : optTruthy (nameValOf S card)
    · simp [parse_card, hv] at hit
    · rw [parse_card, if_pos hv] at hit
      cases Option.some.inj hit
      rfl

/-- Evaluating C6 on an anchor card: the two timestamp-erased parses agree,
and the item's id is the stable id of site, category, name and url. -/
theorem C6_parse_card_deterministic_witness :
    eraseTime (parse_card { product_card := "" } "s" "u"
        ⟨[], Node.elem "a" [] (forestOf [Node.textNode "N"])⟩ "c" "t1") =
      eraseTime (parse_card { product_card := "" } "s" "u"
        ⟨[], Node.elem "a" [] (forestOf [Node.textNode "N"])⟩ "c" "t2") ∧
    (parse_card { product_card := "" } "s" "u" ⟨[], Node.elem "a" [] (forestOf [Node.textNode "N"])⟩
        "c" "t1").map (fun it => it.id) = some (stable_id ["s", "c", "N", "u"]) := by
  have h := C6_parse_card_deterministic { product_card := "" } "s" "u"
    ⟨[], Node.elem "a" [] (forestOf [Node.textNode "N"])⟩ "c" "t1" "t2"
  refine ⟨h.1, ?_⟩
  have hs : parse_card { product_card := "" } "s" "u"
      ⟨[], Node.elem "a" [] (forestOf [Node.textNode "N"])⟩ "c" "t1" =
      some ⟨stable_id ["s", "c", "N", "u"], "s", "c", "N", none, ⟨none, none, none⟩,
        none, "u", none, none, "t1"⟩ := rfl
  rw [hs]
  exact congrArg some (h.2 _ hs)

/-- C10: a card that resolves a name but yields no truthy hyperlink target
(no `href` on the anchor, `url` sub-selector absent or matching nothing)
still produces an item, whose `url` is the page's base URL. -/
theorem C10_url_falls_back_to_base (S : Selectors) (site base : String) (card : Located)
    (cat now : String)
    (h1 : optTruthy (hrefOf S card) = false)
    (h2 : optTruthy (nameValOf S card) = true) :
    ∃ it, parse_card S site base card cat now = some it ∧ it.url = base := by
  rw [parse_card, if_pos h2]
  refine ⟨_, rfl, ?_⟩
  show fullUrlOf S base card = base
  simp [fullUrlOf, h1]

/-- Evaluating C10 on an href-less anchor card: the url field is the base. -/
theorem C10_url_falls_back_to_base_witness :
    (parse_card { product_card := "" } "s" "https://b.fr/"
        ⟨[], Node.elem "a" [] (forestOf [Node.textNode "N"])⟩ "c" "t").map (fun it => it.url) =
      some "https://b.fr/" := by
  obtain ⟨it, hsome, hurl⟩ := C10_url_falls_back_to_base { product_card := "" } "s"
    "https://b.fr/" ⟨[], Node.elem "a" [] (forestOf [Node.textNode "N"])⟩ "c" "t"
    (by decide) (by decide)
  rw [hsome, Option.map_some', hurl]

/-! ## Page iteration and category scraping (`iterate_pages`, `scrape_category`)

Fetching is modeled by an oracle indexed by the number of fetch attempts
made so far in the category run: the k-th call of `self.fetch` returns
`oracle k`, an exception being `Except.error` with its message.  The
`scrape_category` model also records the trace of fetch attempts (`page` for
the page iterator's fetch, `retry` for the extra in-loop
`self.fetch(start_url)`), which makes the retry behaviour observable.  The
loops are fused exactly as the generator laziness dictates: a page is
fetched only when the outer loop asks for the next one, so an early return
on reaching the limit also stops fetching. -/

structure Pagination where
  param : Option String := none
  start_page : Nat := 1
  max_pages : Nat := 10
deriving DecidableEq

/-- The page URLs `iterate_pages` walks: `paginate(...)` when a pagination
`param` is configured and truthy, else just the start URL. -/
def pageUrls (pag : Pagination) (start_url : String) : List String :=
  if optTruthy pag.param then
    paginate start_url (pag.param.getD "") pag.start_page pag.max_pages
  else [start_url]

def iteratePagesGo (oracle : Nat → Except String Node) :
    List String → Nat → List (String × Node)
  | [], _ => []
  | u :: rest, k =>
    match oracle k with
    | .ok soup => (u, soup) :: iteratePagesGo oracle rest (k + 1)
    | .error _ => iteratePagesGo oracle rest (k + 1)

/-- `SiteScraper.iterate_pages(start_url)` as the list of yielded
`(url, soup)` pairs: a failed fetch is logged and the page skipped. -/
def iterate_pages (oracle : Nat → Except String Node) (pag : Pagination)
    (start_url : String) : List (String × Node) :=
  iteratePagesGo oracle (pageUrls pag start_url) 0

inductive FetchEvent where
  | page (url : String)
  | retry (url : String)
deriving DecidableEq

/-- The inner card loop of `scrape_category`: keep parsed items whose price
value parsed, appending and returning at once (flag `true`) when `limit` is
reached. -/
def scrapeCards (parse : Located → Option MaterialItem) (limit : Nat)
    (items : List MaterialItem) : List Located → List MaterialItem × Bool
  | [] => (items, false)
  | c :: cs =>
    match parse c with
    | some it =>
      if it.price.value ≠ none then
        if limit ≤ (items ++ [it]).length then (items ++ [it], true)
        else scrapeCards parse limit (items ++ [it]) cs
      else scrapeCards parse limit items cs
    | none => scrapeCards parse limit items cs

/-- The outer loop of `scrape_category` over the page stream, instrumented
with the fetch trace; `k` counts fetch attempts so far and indexes the
oracle.  An empty first page (`page_url == start_url`) triggers one direct
re-fetch of the start URL whose card list replaces the empty one; a failing
re-fetch is swallowed (`except Exception: pass`). -/
def scrapePagesGo (S : Selectors) (site cat now : String)
    (oracle : Nat → Except String Node) (start_url : String) (limit : Nat) :
    List String → Nat → List MaterialItem → List FetchEvent →
    List MaterialItem × List FetchEvent
  | [], _, items, tr => (items, tr)
  | url :: rest, k, items, tr =>
    match oracle k with
    | .error _ =>
      scrapePagesGo S site cat now oracle start_url limit rest (k + 1) items
        (tr ++ [.page url])
    | .ok soup =>
      let cards := select S.product_card soup
      if cards.isEmpty ∧ url = start_url then
        let cards2 :=
          match oracle (k + 1) with
          | .ok soup2 => select S.product_card soup2
          | .error _ => cards
        let r := scrapeCards (fun c => parse_card S site url c cat now) limit items cards2
        if r.2 then (r.1, tr ++ [.page url, .retry start_url])
        else
          scrapePagesGo S site cat now oracle start_url limit rest (k + 2) r.1
            (tr ++ [.page url, .retry start_url])
      else
        let r := scrapeCards (fun c => parse_card S site url c cat now) limit items cards
        if r.2 then (r.1, tr ++ [.page url])
        else
          scrapePagesGo S site cat now oracle start_url limit rest (k + 1) r.1
            (tr ++ [.page url])

/-- `SiteScraper.scrape_category(category_key, cat_cfg, limit)`, paired with
its fetch trace. -/
def scrape_category (S : Selectors) (pag : Pagination) (site cat now : String)
    (oracle : Nat → Except String Node) (start_url : String) (limit : Nat) :
    List MaterialItem × List FetchEvent :=
  scrapePagesGo S site cat now oracle start_url limit (pageUrls pag start_url) 0 [] []

/-! ## C8: error tolerance of the page iterator -/

lemma iteratePagesGo_spec (oracle : Nat → Except String Node) :
    ∀ (urls : List String) (k : Nat),
      iteratePagesGo oracle urls k =
        (urls.enumFrom k).filterMap
          (fun p => (oracle p.1).toOption.map (fun soup => (p.2, soup))) := by
  intro urls
  induction urls with
  | nil => intro k; rfl
  | cons u rest ih =>
    intro k
    cases ho : oracle k with
    | ok soup => simp [iteratePagesGo, ho, ih, List.enumFrom, Except.toOption]
    | error e => simp [iteratePagesGo, ho, ih, List.enumFrom, Except.toOption]

/-- C8: a failed page fetch is skipped and iteration continues with the next
page — the pairs yielded by `iterate_pages` are exactly those of the page
URLs, in order, whose fetch succeeded, and no fetch error propagates (the
function is total on every oracle). -/
theorem C8_iterate_pages_skips_failures (oracle : Nat → Except String Node)
    (pag : Pagination) (start_url : String) :
    iterate_pages oracle pag start_url =
      (pageUrls pag start_url).enum.filterMap
        (fun p => (oracle p.1).toOption.map (fun soup => (p.2, soup))) := by
  rw [iterate_pages, iteratePagesGo_spec]
  rfl

/-! ## C3: kept items, cap and early termination of `scrape_category` -/

/-- The items a card list contributes: parsed cards with a parsed price. -/
def keptOnCards (parse : Located → Option MaterialItem) (cards : List Located) :
    List MaterialItem :=
  cards.filterMap (fun c =>
    match parse c with
    | some it => if it.price.value ≠ none then some it else none
    | none => none)

/-- Reference (spec-side) stream of all kept items of the whole run with no
cap, against which the early-terminating result is compared. -/
def allKeptGo (S : Selectors) (site cat now : String)
    (oracle : Nat → Except String Node) (start_url : String) :
    List String → Nat → List MaterialItem
  | [], _ => []
  | url :: rest, k =>
    match oracle k with
    | .error _ => allKeptGo S site cat now oracle start_url rest (k + 1)
    | .ok soup =>
      let cards := select S.product_card soup
      if cards.isEmpty ∧ url = start_url then
        let cards2 :=
          match oracle (k + 1) with
          | .ok soup2 => select S.product_card soup2
          | .error _ => cards
        keptOnCards (fun c => parse_card S site url c cat now) cards2 ++
          allKeptGo S site cat now oracle start_url rest (k + 2)
      else
        keptOnCards (fun c => parse_card S site url c cat now) cards ++
          allKeptGo S site cat now oracle start_url rest (k + 1)

lemma scrapeCards_spec (parse : Located → Option MaterialItem) (limit : Nat) :
    ∀ (cards : List Located) (items : List MaterialItem), items.length < limit →
      (scrapeCards parse limit items cards).1 =
          (items ++ keptOnCards parse cards).take limit ∧
        ((scrapeCards parse limit items cards).2 = true ↔
          limit ≤ items.length + (keptOnCards parse cards).length) := by
  intro cards
  induction cards with
  | nil =>
    intro items h
    refine ⟨?_, ?_⟩
    · simp [scrapeCards, keptOnCards, List.take_of_length_le (le_of_lt h)]
    · simp [scrapeCards, keptOnCards]
      omega
  | cons c cs ih =>
    intro items h
    cases hp : parse c with
    | none =>
      have hk : keptOnCards parse (c :: cs) = keptOnCards parse cs := by
        simp [keptOnCards, List.filterMap_cons, hp]
      rw [hk]
      have hres : scrapeCards parse limit items (c :: cs) =
          scrapeCards parse limit items cs := by
        simp only [scrapeCards, hp]
      rw [hres]
      exact ih items h
    | some it =>
      by_cases hpv : it.price.value ≠ none
      · have hk : keptOnCards parse (c :: cs) = it :: keptOnCards parse cs := by
          simp [keptOnCards, List.filterMap_cons, hp, hpv]
        rw [hk]
        by_cases hcap : limit ≤ (items ++ [it]).length
        · have hres : scrapeCards parse limit items (c :: cs) = (items ++ [it], true) := by
            simp only [scrapeCards, hp]
            rw [if_pos hpv, if_pos hcap]
          rw [hres]
          have hlen : limit = items.length + 1 := by
            simp only [List.length_append, List.length_singleton] at hcap
            omega
          constructor
          · rw [hlen]
            have := @List.take_append _ items (it :: keptOnCards parse cs) 1
            simpa using this.symm
          · refine ⟨fun _ => ?_, fun _ => rfl⟩
            simp only [List.length_cons]
            omega
        · have hres : scrapeCards parse limit items (c :: cs) =
              scrapeCards parse limit (items ++ [it]) cs := by
            simp only [scrapeCards, hp]
            rw [if_pos hpv, if_neg hcap]
          rw [hres]
          have hlt : (items ++ [it]).length < limit := by
            simp only [List.length_append, List.length_singleton] at hcap ⊢
            omega
          obtain ⟨h1, h2⟩ := ih (items ++ [it]) hlt
          refine ⟨?_, ?_⟩
          · rw [h1, List.append_assoc]
            rfl
          · rw [h2]
            simp only [List.length_append, List.length_singleton, List.length_cons,
              List.length_nil]
            omega
      · have hk : keptOnCards parse (c :: cs) = keptOnCards parse cs := by
          simp [keptOnCards, List.filterMap_cons, hp, hpv]
        rw [hk]
        have hres : scrapeCards parse limit items (c :: cs) =
            scrapeCards parse limit items cs := by
          simp only [scrapeCards, hp]
          rw [if_neg hpv]
        rw [hres]
        exact ih items h

lemma take_append_of_le_length {α : Type} (a b : List α) (n : Nat) (h : n ≤ a.length) :
    (a ++ b).take n = a.take n := by
  rw [List.take_append_eq_append_take, Nat.sub_eq_zero_of_le h, List.take_zero,
    List.append_nil]

lemma scrapePagesGo_spec (S : Selectors) (site cat now : String)
    (oracle : Nat → Except String Node) (start_url : String) (limit : Nat) :
    ∀ (urls : List String) (k : Nat) (items : List MaterialItem)
      (tr : List FetchEvent), items.length < limit →
      (scrapePagesGo S site cat now oracle start_url limit urls k items tr).1 =
        (items ++ allKeptGo S site cat now oracle start_url urls k).take limit := by
  intro urls
  induction urls with
  | nil =>
    intro k items tr h
    simp [scrapePagesGo, allKeptGo, List.take_of_length_le (le_of_lt h)]
  | cons url rest ih =>
    intro k items tr h
    cases ho : oracle k with
    | error e =>
      simp only [scrapePagesGo, allKeptGo, ho]
      exact ih (k + 1) items _ h
    | ok soup =>
      simp only [scrapePagesGo, allKeptGo, ho]
      by_cases hcond : (select S.product_card soup).isEmpty ∧ url = start_url
      · rw [if_pos hcond, if_pos hcond]
        set cards2 :=
          match oracle (k + 1) with
          | .ok soup2 => select S.product_card soup2
          | .error _ => select S.product_card soup
        obtain ⟨h1, h2⟩ :=
          scrapeCards_spec (fun c => parse_card S site url c cat now) limit cards2 items h
        cases hr : (scrapeCards (fun c => parse_card S site url c cat now) limit
            items cards2).2 with
        | true =>
          rw [if_pos rfl]
          have hge : limit ≤ (items ++ keptOnCards
              (fun c => parse_card S site url c cat now) cards2).length := by
            simp only [List.length_append]
            exact h2.mp hr
          rw [h1, ← List.append_assoc, take_append_of_le_length _ _ _ hge]
        | false =>
          rw [if_neg Bool.false_ne_true]
          have hnotge : ¬ limit ≤ items.length + (keptOnCards
              (fun c => parse_card S site url c cat now) cards2).length := by
            intro hge
            rw [h2.mpr hge] at hr
            cases hr
          have heq : (scrapeCards (fun c => parse_card S site url c cat now) limit
              items cards2).1 = items ++ keptOnCards
              (fun c => parse_card S site url c cat now) cards2 := by
            rw [h1]
            exact List.take_of_length_le (by simp only [List.length_append]; omega)
          have hlt : (scrapeCards (fun c => parse_card S site url c cat now) limit
              items cards2).1.length < limit := by
            rw [heq]
            simp only [List.length_append]
            omega
          rw [ih (k + 2) _ _ hlt, heq, List.append_assoc]
      · rw [if_neg hcond, if_neg hcond]
        obtain ⟨h1, h2⟩ :=
          scrapeCards_spec (fun c => parse_card S site url c cat now) limit
            (select S.product_card soup) items h
        cases hr : (scrapeCards (fun c => parse_card S site url c cat now) limit
            items (select S.product_card soup)).2 with
        | true =>
          rw [if_pos rfl]
          have hge : limit ≤ (items ++ keptOnCards
              (fun c => parse_card S site url c cat now)
              (select S.product_card soup)).length := by
            simp only [List.length_append]
            exact h2.mp hr
          rw [h1, ← List.append_assoc, take_append_of_le_length _ _ _ hge]
        | false =>
          rw [if_neg Bool.false_ne_true]
          have hnotge : ¬ limit ≤ items.length + (keptOnCards
              (fun c => parse_card S site url c cat now)
              (select S.product_card soup)).length := by
            intro hge
            rw [h2.mpr hge] at hr
            cases hr
          have heq : (scrapeCards (fun c => parse_card S site url c cat now) limit
              items (select S.product_card soup)).1 = items ++ keptOnCards
              (fun c => parse_card S site url c cat now)
              (select S.product_card soup) := by
            rw [h1]
            exact List.take_of_length_le (by simp only [List.length_append]; omega)
          have hlt : (scrapeCards (fun c => parse_card S site url c cat now) limit
              items (select S.product_card soup)).1.length < limit := by
            rw [heq]
            simp only [List.length_append]
            omega
          rw [ih (k + 1) _ _ hlt, heq, List.append_assoc]

lemma keptOnCards_priced (parse : Located → Option MaterialItem)
    (cards : List Located) :
    ∀ it ∈ keptOnCards parse cards, it.price.value ≠ none := by
  intro it hit
  rw [keptOnCards, List.mem_filterMap] at hit
  obtain ⟨c, -, heq⟩ := hit
  cases hp : parse c with
  | none =>
    simp only [hp] at heq
    exact Option.noConfusion heq
  | some it2 =>
    simp only [hp] at heq
    by_cases hpv : it2.price.value ≠ none
    · rw [if_pos hpv] at heq
      cases heq
      exact hpv
    · rw [if_neg hpv] at heq
      cases heq

lemma allKeptGo_priced (S : Selectors) (site cat now : String)
    (oracle : Nat → Except String Node) (start_url : String) :
    ∀ (urls : List String) (k : Nat) (it : MaterialItem),
      it ∈ allKeptGo S site cat now oracle start_url urls k →
      it.price.value ≠ none := by
  intro urls
  induction urls with
  | nil =>
    intro k it hit
    cases hit
  | cons url rest ih =>
    intro k it hit
    cases ho : oracle k with
    | error e =>
      simp only [allKeptGo, ho] at hit
      exact ih (k + 1) it hit
    | ok soup =>
      simp only [allKeptGo, ho] at hit
      by_cases hcond : (select S.product_card soup).isEmpty ∧ url = start_url
      · rw [if_pos hcond] at hit
        rcases List.mem_append.mp hit with hmem | hmem
        · exact keptOnCards_priced _ _ it hmem
        · exact ih (k + 2) it hmem
      · rw [if_neg hcond] at hit
        rcases List.mem_append.mp hit with hmem | hmem
        · exact keptOnCards_priced _ _ it hmem
        · exact ih (k + 1) it hmem

/-- C3 as written fails when the configured limit is `0` (or negative): the
loop appends before checking the cap, so one kept item is returned although
the cap is `0`.  Concretely, a single page holding one priced card scraped
with `limit = 0` returns one item, not zero. -/
theorem C3_counterexample :
    (scrape_category { product_card := "a" } {} "s" "c" "t"
        (fun _ => Except.ok (Node.elem "[document]" [] (forestOf
          [Node.elem "a" [("href", "/p")] (forestOf [Node.textNode "X 1 €"])])))
        "u" 0).1.length = 1 := by
  decide

/-- C3, amended with the hypothesis `1 ≤ limit`: every returned item has a
parsed price value, the result never exceeds the cap, and it is exactly the
uncapped stream of kept items truncated at the cap — so accumulation stops
the instant the cap is reached, mid-page included. -/
theorem C3_scrape_category_cap (S : Selectors) (pag : Pagination)
    (site cat now : String) (oracle : Nat → Except String Node)
    (start_url : String) (limit : Nat) (h : 1 ≤ limit) :
    (∀ it ∈ (scrape_category S pag site cat now oracle start_url limit).1,
      it.price.value ≠ none) ∧
    (scrape_category S pag site cat now oracle start_url limit).1.length ≤ limit ∧
    (scrape_category S pag site cat now oracle start_url limit).1 =
      (allKeptGo S site cat now oracle start_url (pageUrls pag start_url) 0).take limit := by
  have hmain : (scrape_category S pag site cat now oracle start_url limit).1 =
      (allKeptGo S site cat now oracle start_url (pageUrls pag start_url) 0).take limit := by
    rw [scrape_category]
    rw [scrapePagesGo_spec S site cat now oracle start_url limit _ 0 [] [] (by simpa using h)]
    rfl
  refine ⟨?_, ?_, hmain⟩
  · intro it hit
    rw [hmain] at hit
    exact allKeptGo_priced S site cat now oracle start_url _ 0 it (List.mem_of_mem_take hit)
  · rw [hmain]
    exact (List.length_take _ _).trans_le (min_le_left _ _)

/-- Evaluating C3 with cap `1` on a two-card page: exactly one priced item
comes back and it is the truncated kept stream. -/
theorem C3_scrape_category_cap_witness :
    1 ≤ 1 ∧
    ((∀ it ∈ (scrape_category { product_card := "a" } {} "s" "c" "t"
        (fun _ => Except.ok (Node.elem "[document]" [] (forestOf
          [Node.elem "a" [("href", "/p")] (forestOf [Node.textNode "X 1 €"]),
           Node.elem "a" [("href", "/q")] (forestOf [Node.textNode "Y 2 €"])])))
        "u" 1).1, it.price.value ≠ none) ∧
      (scrape_category { product_card := "a" } {} "s" "c" "t"
        (fun _ => Except.ok (Node.elem "[document]" [] (forestOf
          [Node.elem "a" [("href", "/p")] (forestOf [Node.textNode "X 1 €"]),
           Node.elem "a" [("href", "/q")] (forestOf [Node.textNode "Y 2 €"])])))
        "u" 1).1.length ≤ 1 ∧
      (scrape_category { product_card := "a" } {} "s" "c" "t"
        (fun _ => Except.ok (Node.elem "[document]" [] (forestOf
          [Node.elem "a" [("href", "/p")] (forestOf [Node.textNode "X 1 €"]),
           Node.elem "a" [("href", "/q")] (forestOf [Node.textNode "Y 2 €"])])))
        "u" 1).1 =
        (allKeptGo { product_card := "a" } "s" "c" "t"
          (fun _ => Except.ok (Node.elem "[document]" [] (forestOf
            [Node.elem "a" [("href", "/p")] (forestOf [Node.textNode "X 1 €"]),
             Node.elem "a" [("href", "/q")] (forestOf [Node.textNode "Y 2 €"])])))
          "u" (pageUrls {} "u") 0).take 1) :=
  ⟨by decide,
   C3_scrape_category_cap { product_card := "a" } {} "s" "c" "t"
     (fun _ => Except.ok (Node.elem "[document]" [] (forestOf
       [Node.elem "a" [("href", "/p")] (forestOf [Node.textNode "X 1 €"]),
        Node.elem "a" [("href", "/q")] (forestOf [Node.textNode "Y 2 €"])])))
     "u" 1 (by decide)⟩

/-! ## C9: the empty-first-page retry -/

lemma scrapePagesGo_no_retry (S : Selectors) (site cat now : String)
    (oracle : Nat → Except String Node) (start_url : String) (limit : Nat) :
    ∀ (urls : List String) (k : Nat) (items : List MaterialItem)
      (tr : List FetchEvent),
      (∀ v ∈ urls, v ≠ start_url) →
      (∀ v, FetchEvent.retry v ∉ tr) →
      ∀ u, FetchEvent.retry u ∉
        (scrapePagesGo S site cat now oracle start_url limit urls k items tr).2 := by
  intro urls
  induction urls with
  | nil =>
    intro k items tr hurls htr u
    exact htr u
  | cons url rest ih =>
    intro k items tr hurls htr u
    have hurl : url ≠ start_url := hurls url (List.mem_cons_self url rest)
    have htr2 : ∀ v, FetchEvent.retry v ∉ tr ++ [FetchEvent.page url] := by
      intro v hv
      rcases List.mem_append.mp hv with hv | hv
      · exact htr v hv
      · exact FetchEvent.noConfusion (List.mem_singleton.mp hv)
    have hrest : ∀ v ∈ rest, v ≠ start_url :=
      fun v hv => hurls v (List.mem_cons_of_mem _ hv)
    cases ho : oracle k with
    | error e =>
      simp only [scrapePagesGo, ho]
      exact ih (k + 1) items _ hrest htr2 u
    | ok soup =>
      simp only [scrapePagesGo, ho]
      have hcond : ¬ ((select S.product_card soup).isEmpty ∧ url = start_url) :=
        fun hc => hurl hc.2
      rw [if_neg hcond]
      split
      · exact htr2 u
      · exact ih (k + 1) _ _ hrest htr2 u

/-- The claim's retry condition for one fetched page (spec-side): the fetch
succeeded, its card list is empty, and the page URL is byte-identical to the
start URL. -/
def retryCondition (S : Selectors) (start_url : String) (fetched : Except String Node)
    (url : String) : Bool :=
  match fetched with
  | .ok soup => (select S.product_card soup).isEmpty && decide (url = start_url)
  | .error _ => false

/-- The fetch events one page contributes (spec-side): its own fetch, plus
one direct retry of the start URL exactly when the retry condition holds. -/
def pageEvents (S : Selectors) (start_url : String) (fetched : Except String Node)
    (url : String) : List FetchEvent :=
  FetchEvent.page url ::
    (if retryCondition S start_url fetched url then [FetchEvent.retry start_url] else [])

/-- The trace the amended claim predicts for a list of consumed pages whose
first fetch has index `k`: each page contributes `pageEvents`, and a retry
consumes one extra fetch. -/
def expectedTrace (S : Selectors) (start_url : String)
    (oracle : Nat → Except String Node) : List String → Nat → List FetchEvent
  | [], _ => []
  | url :: rest, k =>
    pageEvents S start_url (oracle k) url ++
      expectedTrace S start_url oracle rest
        (k + if retryCondition S start_url (oracle k) url then 2 else 1)

lemma scrapePagesGo_trace (S : Selectors) (site cat now : String)
    (oracle : Nat → Except String Node) (start_url : String) (limit : Nat) :
    ∀ (urls : List String) (k : Nat) (items : List MaterialItem)
      (tr : List FetchEvent),
      ∃ n, n ≤ urls.length ∧
        (scrapePagesGo S site cat now oracle start_url limit urls k items tr).2 =
          tr ++ expectedTrace S start_url oracle (urls.take n) k := by
  intro urls
  induction urls with
  | nil =>
    intro k items tr
    exact ⟨0, Nat.le_refl 0, by simp [scrapePagesGo, expectedTrace]⟩
  | cons url rest ih =>
    intro k items tr
    cases ho : oracle k with
    | error e =>
      have hrc : retryCondition S start_url (oracle k) url = false := by
        rw [ho]
        rfl
      obtain ⟨n, hn, htr⟩ := ih (k + 1) items (tr ++ [FetchEvent.page url])
      refine ⟨n + 1, by simpa using hn, ?_⟩
      simp only [scrapePagesGo, ho]
      rw [htr]
      simp [List.take_succ_cons, expectedTrace, pageEvents, hrc]
    | ok soup =>
      by_cases hcond : (select S.product_card soup).isEmpty ∧ url = start_url
      · have hrc : retryCondition S start_url (oracle k) url = true := by
          rw [ho]
          simp [retryCondition, hcond.1, hcond.2]
        simp only [scrapePagesGo, ho]
        rw [if_pos hcond]
        split
        · refine ⟨1, by simp, ?_⟩
          simp [expectedTrace, pageEvents, hrc]
        · obtain ⟨n, hn, htr⟩ := ih (k + 2) _
            (tr ++ [FetchEvent.page url, FetchEvent.retry start_url])
          refine ⟨n + 1, by simpa using hn, ?_⟩
          rw [htr]
          simp [List.take_succ_cons, expectedTrace, pageEvents, hrc]
      · have hrc : retryCondition S start_url (oracle k) url = false := by
          rw [ho]
          cases hE : (select S.product_card soup).isEmpty
          · simp [retryCondition, hE]
          · have hne : url ≠ start_url := fun he => hcond ⟨hE, he⟩
            simp [retryCondition, hE, hne]
        simp only [scrapePagesGo, ho]
        rw [if_neg hcond]
        split
        · refine ⟨1, by simp, ?_⟩
          simp [expectedTrace, pageEvents, hrc]
        · obtain ⟨n, hn, htr⟩ := ih (k + 1) _ (tr ++ [FetchEvent.page url])
          refine ⟨n + 1, by simpa using hn, ?_⟩
          rw [htr]
          simp [List.take_succ_cons, expectedTrace, pageEvents, hrc]

/-- C9, amended: the in-loop retry is attempted exactly when a successfully
fetched page yields zero cards matching the product-card selector and that
page's URL is byte-identical to the start URL — the fetch trace is, page by
page over the consumed prefix of the page URLs, one page fetch plus one
direct retry fetch of the start URL precisely when that condition holds
(`expectedTrace`).  In particular, when every generated page URL differs
from the start URL no retry happens, and without a pagination `param` the
sole page URL is the start URL itself, so an empty first page triggers
exactly one direct retry fetch (trace `[page start_url, retry start_url]`)
and a non-empty one triggers none. -/
theorem C9_first_page_retry (S : Selectors) (pag : Pagination) (site cat now : String)
    (oracle : Nat → Except String Node) (start_url : String) (limit : Nat) :
    (∃ n, n ≤ (pageUrls pag start_url).length ∧
      (scrape_category S pag site cat now oracle start_url limit).2 =
        expectedTrace S start_url oracle ((pageUrls pag start_url).take n) 0) ∧
    ((∀ v ∈ pageUrls pag start_url, v ≠ start_url) →
      ∀ u, FetchEvent.retry u ∉
        (scrape_category S pag site cat now oracle start_url limit).2) ∧
    (∀ soup, optTruthy pag.param = false → oracle 0 = Except.ok soup →
      (((select S.product_card soup).isEmpty = true →
        (scrape_category S pag site cat now oracle start_url limit).2 =
          [FetchEvent.page start_url, FetchEvent.retry start_url]) ∧
       ((select S.product_card soup).isEmpty = false →
        (scrape_category S pag site cat now oracle start_url limit).2 =
          [FetchEvent.page start_url]))) := by
  refine ⟨?_, ?_, ?_⟩
  · obtain ⟨n, hn, htr⟩ := scrapePagesGo_trace S site cat now oracle start_url limit
      (pageUrls pag start_url) 0 [] []
    exact ⟨n, hn, by simpa using htr⟩
  · intro hurls u
    rw [scrape_category]
    exact scrapePagesGo_no_retry S site cat now oracle start_url limit _ 0 [] []
      hurls (fun v hv => (List.not_mem_nil _ hv).elim) u
  · intro soup hparam h0
    have hpage : pageUrls pag start_url = [start_url] := by
      simp [pageUrls, hparam]
    constructor
    · intro hempty
      rw [scrape_category, hpage]
      simp only [scrapePagesGo, h0]
      have hcond : (select S.product_card soup).isEmpty = true ∧ True :=
        ⟨hempty, trivial⟩
      rw [if_pos hcond]
      split
      · rfl
      · rfl
    · intro hnonempty
      rw [scrape_category, hpage]
      simp only [scrapePagesGo, h0]
      have hcond : ¬ ((select S.product_card soup).isEmpty = true ∧ True) := by
        intro hc
        rw [hnonempty] at hc
        exact Bool.false_ne_true hc.1
      rw [if_neg hcond]
      split
      · rfl
      · rfl

/-- C9 as written fails on a paginated category: with `param = "page"` the
first fetched page URL carries the query and differs from the start URL, so
an empty first page triggers no retry — the trace holds the one page fetch
only, although its card list was empty. -/
theorem C9_counterexample :
    (scrape_category { product_card := "a" }
        { param := some "page", start_page := 1, max_pages := 1 } "s" "c" "t"
        (fun _ => Except.ok (Node.elem "[document]" [] (forestOf [])))
        "https://s.fr/c" 5).2 = [FetchEvent.page "https://s.fr/c?page=1"] ∧
    (select "a" (Node.elem "[document]" [] (forestOf []))).isEmpty = true :=
  ⟨by decide, by decide⟩

/-- Evaluating the amended C9 on an unpaginated category with an empty
page: exactly one retry of the start URL appears in the trace. -/
theorem C9_first_page_retry_witness :
    (scrape_category { product_card := "a" } {} "s" "c" "t"
        (fun _ => Except.ok (Node.elem "[document]" [] (forestOf []))) "u" 5).2 =
      [FetchEvent.page "u", FetchEvent.retry "u"] :=
  ((C9_first_page_retry { product_card := "a" } {} "s" "c" "t"
      (fun _ => Except.ok (Node.elem "[document]" [] (forestOf []))) "u" 5).2.2
    (Node.elem "[document]" [] (forestOf [])) (by decide) rfl).1 (by decide)

end Donizo
